import Mathlib

/-!
A shallow embedding of `devito/stencilkernel.py`.

The Python module builds stencil operators, binds call-time arguments,
auto-tunes loop-blocking parameters, and reports performance metrics.
Each definition below mirrors one function (or a contiguous fragment) of
the source; the theorems at the end of the file settle the specification
claims against these definitions.

Modelling conventions:
* Python `OrderedDict`s keyed by names become association lists
  `List (String × _)` with first-match lookup (`lookupA`) and
  replace-in-place-or-append update (`setA`), which is exactly the
  OrderedDict behaviour.
* Machine floats used for timings and derived metrics are modelled as
  exact rationals `ℚ` (the claims are about the arithmetic formulas).
* Fallible code (Python `raise`, failing `assert`, `KeyError`,
  `IndexError`, `ValueError` from `min`/`max` on empty sequences) is
  modelled with `Except String`.
-/

namespace StencilKernel

/-- First-match association-list lookup (Python `dict.get` / `d[k]`). -/
def lookupA {α : Type} : List (String × α) → String → Option α
  | [], _ => none
  | kv :: rest, k => if kv.1 = k then some kv.2 else lookupA rest k

/-- Association-list update: replace the value at an existing key in place,
otherwise append the new pair (Python `OrderedDict`, `d[k] = v`). -/
def setA {α : Type} : List (String × α) → String → α → List (String × α)
  | [], k, v => [(k, v)]
  | kv :: rest, k, v => if kv.1 = k then (k, v) :: rest else kv :: setA rest k v

/-- The underlying data of a dimension: a name and an optional declared
extent (`None` meaning the dimension is open, resolved at call time). -/
structure BaseDim where
  name : String
  size : Option Nat
deriving DecidableEq, Repr

/-- `devito.dimension`: either a plain `Dimension` or a `BufferedDimension`
aliasing a parent dimension (a bounded ring of buffer slots). -/
inductive Dim where
  | plain (b : BaseDim)
  | buffered (b : BaseDim) (parent : BaseDim)
deriving DecidableEq, Repr

def Dim.base : Dim → BaseDim
  | .plain b => b
  | .buffered b _ => b

def Dim.name (d : Dim) : String := d.base.name

def Dim.size (d : Dim) : Option Nat := d.base.size

def Dim.isBuffered : Dim → Bool
  | .plain _ => false
  | .buffered _ _ => true

def Dim.parentName : Dim → Option String
  | .plain _ => none
  | .buffered _ p => some p.name

/-- A `SymbolicData` argument: named array data with a shape and indexing
dimensions.  `ref` models the identity of the underlying data buffer
(numpy array object identity); `copy` allocates a fresh buffer. -/
structure SymData where
  name : String
  shape : List Nat
  indices : List Dim
  ref : Nat
deriving DecidableEq, Repr

/-- A value bound in the call-time argument mapping: array data, a still
unresolved dimension placeholder, a resolved integer size, or the
profiler struct appended by `_extra_arguments`. -/
inductive Value where
  | arrV (a : SymData)
  | dimV (d : Dim)
  | natV (n : Nat)
  | profV
deriving DecidableEq, Repr

/-- `numpy.ndarray.copy`: a fresh buffer holding the same description.
Only array data is copied in the source (`v.copy()` on line 531 is applied
to values selected from `_dse_state.output_fields`, which are arrays). -/
def copyData (a : SymData) : SymData := { a with ref := a.ref + 1 }

def copyVal : Value → Value
  | .arrV a => .arrV (copyData a)
  | v => v

/-- A keyword-argument value: either symbol data (an override for a data
parameter) or an integer (an explicit dimension size). -/
inductive KwVal where
  | arrK (a : SymData)
  | natK (n : Nat)
deriving DecidableEq, Repr

/-- The call-time argument mapping (`arguments` in `OperatorBasic.arguments`). -/
abbrev Args := List (String × Value)

/-- `dim_sizes`: resolved extents, keyed by dimension.  The source keys this
dict by dimension objects; dimension names are unique (spec §3 invariant),
so lookups compare names. -/
abbrev DimSizes := List (Dim × Nat)

def lookupSize : DimSizes → String → Option Nat
  | [], _ => none
  | dn :: rest, k => if dn.1.name = k then some dn.2 else lookupSize rest k

def setSize : DimSizes → Dim → Nat → DimSizes
  | [], d, v => [(d, v)]
  | dn :: rest, d, v => if dn.1.name = d.name then (d, v) :: rest else dn :: setSize rest d v

/-! ## `OperatorBasic._retrieve_dtype` (lines 384-393)

```
lhss = set([s.lhs.base.function.dtype for s in stencils])
if len(lhss) != 1:
    raise RuntimeError("Stencil types mismatch.")
return lhss.pop()
```
-/

/-- A stencil equation, reduced to the only attribute `_retrieve_dtype`
inspects: the data type of its left-hand side. -/
structure Stencil where
  lhsDtype : String
deriving DecidableEq, Repr

/-- `OperatorBasic._retrieve_dtype`: the set of left-hand-side dtypes must
have exactly one element; otherwise a `RuntimeError` is raised.  The raise
propagates out of `OperatorBasic.__init__` (line 78), so no operator is
constructed. -/
def retrieveDtype (stencils : List Stencil) : Except String String :=
  match (stencils.map (fun s => s.lhsDtype)).dedup with
  | [d] => .ok d
  | _ => .error "Stencil types mismatch."

/-! ## `OperatorCore._profile_summary` metrics (lines 479-511)

For each profiled section:
```
itershape = [i.extent(finish=dim_sizes.get(dims[i])) for i in itspace]
iterspace = reduce(operator.mul, itershape)
flops = float(profile.ops*iterspace)
gflops = flops/10**9
datashape = [i.dim.size or dim_sizes[dims[i]] for i in itspace]
dataspace = reduce(operator.mul, datashape)
traffic = profile.memory*dataspace*self.dtype().itemsize
oi = flops/traffic
gflopss = gflops/time
```
-/

/-- `PerfEntry` (line 623): `namedtuple('PerfEntry', 'time gflopss oi itershape datashape')`. -/
structure PerfEntry where
  time : ℚ
  gflopss : ℚ
  oi : ℚ
  itershape : List Nat
  datashape : List Nat
deriving DecidableEq, Repr

/-- `reduce(operator.mul, shape)` for a non-empty shape list. -/
def prodShape (l : List Nat) : Nat := l.prod

/-- The metric computation of `_profile_summary` for one section, given the
static estimates (`profile.ops`, `profile.memory`), the element byte size
(`self.dtype().itemsize`), the realized iteration and data shapes, and the
measured time of the section. -/
def summaryEntry (ops memory itemsize : Nat) (itershape datashape : List Nat)
    (t : ℚ) : PerfEntry :=
  let iterspace : ℚ := (prodShape itershape : Nat)
  let flops : ℚ := (ops : ℚ) * iterspace
  let gflops : ℚ := flops / 10 ^ 9
  let dataspace : ℚ := (prodShape datashape : Nat)
  let traffic : ℚ := (memory : ℚ) * dataspace * (itemsize : ℚ)
  { time := t
    gflopss := gflops / t
    oi := flops / traffic
    itershape := itershape
    datashape := datashape }

/-! ## `OperatorBasic.arguments`, keyword overrides (lines 131-141)

```
r_args = [f_n for f_n, f in arguments.items() if isinstance(f, SymbolicData)]
o_vals = OrderedDict([arg for arg in kwargs.items() if arg[0] in r_args])
for argname in o_vals.keys():
    if not arguments[argname].shape == o_vals[argname].shape:
        raise InvalidArgument("Shapes must match")
    arguments[argname] = o_vals[argname]
```
-/

/-- The override loop body.  A keyword value that is not symbol data has no
`.shape` attribute, which in Python raises an `AttributeError`; likewise if
the current binding is not symbol data. -/
def ovLoop (args : Args) : List (String × KwVal) → Except String Args
  | [] => .ok args
  | (n, .arrK a) :: rest =>
    match lookupA args n with
    | some (.arrV cur) =>
      if cur.shape = a.shape then ovLoop (setA args n (.arrV a)) rest
      else .error "Shapes must match"
    | _ => .error "AttributeError: shape"
  | (_, .natK _) :: _ => .error "AttributeError: shape"

/-- Keyword overrides for data parameters: only keyword arguments whose name
matches a `SymbolicData` parameter name participate. -/
def applyOverrides (rNames : List String) (kw : List (String × KwVal)) (args : Args) :
    Except String Args :=
  ovLoop args (kw.filter (fun p => p.1 ∈ rNames))

/-! ## `OperatorBasic.arguments`, open-dimension inference (lines 143-172)

```
for f, arg in zip(f_args, args):
    arguments[arg.name] = self._arg_data(f)
    shape = self._arg_shape(f)
    for i, dim in enumerate(f.indices):
        if dim.size is None:
            if dim.name in kwargs:
                dim_sizes[dim] = kwargs[dim.name]
            if dim in dim_sizes:
                if not dim.is_Buffered:
                    assert dim_sizes[dim] <= shape[i]
            else:
                dim_sizes[dim] = shape[i]
        else:
            if not isinstance(dim, BufferedDimension):
                assert dim.size == shape[i]
buf_dims = [d for d in dim_sizes if d.is_Buffered]
for dim in buf_dims:
    if dim.parent not in dim_sizes:
        dim_sizes[dim.parent] = dim_sizes[dim]
```
-/

/-- One open dimension (declared `size is None`) of one data parameter.
`ext` is `shape[i]`, the array extent for that axis (`none` when the index
is out of range of the data shape; Python accesses `shape[i]` lazily, only
in the branches that mention it, raising `IndexError` there).  A failing
`assert` is an `AssertionError`.  A keyword override that is itself symbol
data would be compared to an integer extent by the assert; that comparison
is not meaningful and is modelled as an error. -/
def resolveOpenDim (kw : List (String × KwVal)) (ds : DimSizes) (dim : Dim)
    (ext : Option Nat) : Except String DimSizes := do
  let ds1 ←
    match lookupA kw dim.name with
    | some (.natK v) => Except.ok (setSize ds dim v)
    | some (.arrK _) => Except.error "TypeError: dimension override must be an integer"
    | none => Except.ok ds
  match lookupSize ds1 dim.name with
  | some w =>
    if dim.isBuffered then .ok ds1
    else
      match ext with
      | some e =>
        if w ≤ e then .ok ds1
        else .error "AssertionError: derived size exceeds data extent"
      | none => .error "IndexError: tuple index out of range"
  | none =>
    match ext with
    | some e => .ok (setSize ds1 dim e)
    | none => .error "IndexError: tuple index out of range"

/-- A fixed dimension (declared size present): the array extent must equal
the declared size unless the dimension is buffered. -/
def checkFixedDim (dim : Dim) (s : Nat) (ext : Option Nat) : Except String Unit :=
  if dim.isBuffered then .ok ()
  else
    match ext with
    | some e => if s = e then .ok () else .error "AssertionError: fixed dimension mismatch"
    | none => .error "IndexError: tuple index out of range"

/-- The inner `for i, dim in enumerate(f.indices)` loop for one data
parameter `f`, with `shape = self._arg_shape(f)` being `f.shape`. -/
def processParam (kw : List (String × KwVal)) (ds : DimSizes) (f : SymData) :
    Except String DimSizes :=
  f.indices.enum.foldlM
    (fun acc idim =>
      match idim.2.size with
      | none => resolveOpenDim kw acc idim.2 (f.shape.get? idim.1)
      | some s => do
        let _ ← checkFixedDim idim.2 s (f.shape.get? idim.1)
        Except.ok acc)
    ds

/-- The outer `for f, arg in zip(f_args, args)` loop.  `f_args` are the
`SymbolicData` values currently bound in `arguments` (after overrides);
from each positional argument only its `.name` is consumed
(`arguments[arg.name] = self._arg_data(f)`), so positional arguments are
modelled by their names. -/
def bindPositional (kw : List (String × KwVal)) (args : Args) (posNames : List String) :
    Except String (Args × DimSizes) :=
  let fArgs := args.filterMap (fun kv => match kv.2 with | .arrV a => some a | _ => none)
  (fArgs.zip posNames).foldlM
    (fun acc fa => do
      let args1 := setA acc.1 fa.2 (Value.arrV fa.1)
      let ds1 ← processParam kw acc.2 fa.1
      Except.ok (args1, ds1))
    (args, ([] : DimSizes))

/-- Lines 168-172: ensure the parent of every buffered dimension with a
resolved extent is itself resolved, inheriting the buffered extent. -/
def propagateBuffered (ds : DimSizes) : DimSizes :=
  ds.foldl
    (fun acc dn =>
      match dn.1 with
      | .buffered _ p =>
        if (lookupSize acc p.name).isSome then acc else acc ++ [(Dim.plain p, dn.2)]
      | .plain _ => acc)
    ds

/-! ## `OperatorBasic.arguments`, loop-engine block sizes (lines 174-188)

```
for i in self._dle_state.arguments:
    dim_size = dim_sizes.get(i.original_dim, i.original_dim.size)
    assert dim_size is not None, "Unable to match arguments and values"
    if i.value:
        try:
            dle_arguments[i.argument] = i.value(dim_size)
        except TypeError:
            dle_arguments[i.argument] = i.value
            maybe_autotune = False
    else:
        dle_arguments[i.argument] = dim_size
dim_sizes.update(dle_arguments)
```
-/

/-- The `value` of a loop-engine blocking argument: either a plain integer
(calling it raises `TypeError`, so it is bound directly and autotuning is
disabled) or a derivation function of the dimension extent. -/
inductive BlockVal where
  | fixed (n : Nat)
  | derived (f : Nat → Nat)

/-- A blocking-parameter descriptor from `self._dle_state.arguments`:
the generated parameter (`i.argument`), the originating dimension
(`i.original_dim`) and the optional value.  `value = none` models a Python
`None`/absent value. -/
structure DLEArg where
  argDim : Dim
  origDim : Dim
  value : Option BlockVal

/-- One iteration of the loop over `self._dle_state.arguments`.  Note the
Python truthiness test `if i.value:`: a fixed value of `0` is falsy and is
treated exactly like an absent value (the parameter falls back to the full
dimension extent and autotuning is not disabled). -/
def resolveDLEArg (ds : DimSizes) (flag : Bool) (i : DLEArg) :
    Except String ((Dim × Nat) × Bool) :=
  match (lookupSize ds i.origDim.name).orElse (fun _ => i.origDim.size) with
  | none => .error "Unable to match arguments and values"
  | some n =>
    match i.value with
    | none => .ok ((i.argDim, n), flag)
    | some (.fixed v) => if v = 0 then .ok ((i.argDim, n), flag) else .ok ((i.argDim, v), false)
    | some (.derived f) => .ok ((i.argDim, f n), flag)

/-- The whole loop: accumulates `dle_arguments` in order and threads the
`maybe_autotune` flag. -/
def bindDLEArgs (ds : DimSizes) (flag : Bool) (dle : List DLEArg) :
    Except String (List (Dim × Nat) × Bool) :=
  dle.foldlM
    (fun acc i => do
      let r ← resolveDLEArg ds acc.2 i
      Except.ok (acc.1 ++ [r.1], r.2))
    (([] : List (Dim × Nat)), flag)

/-- `dim_sizes.update(dle_arguments)`. -/
def updateSizes (ds : DimSizes) (ps : List (Dim × Nat)) : DimSizes :=
  ps.foldl (fun acc p => setSize acc p.1 p.2) ds

/-- Lines 190-193: replace every still-unresolved dimension placeholder in
the argument mapping with its resolved size; a dimension absent from
`dim_sizes` is a `KeyError`. -/
def resolveDimArgs (args : Args) (ds : DimSizes) : Except String Args :=
  args.mapM
    (fun kv =>
      match kv.2 with
      | .dimV d =>
        match lookupSize ds d.name with
        | some n => Except.ok (kv.1, Value.natV n)
        | none => Except.error "KeyError: unresolved open dimension"
      | v => Except.ok (kv.1, v))

/-! ## The operator model

The attributes of a built operator consumed by `arguments`, `_autotune`,
`_profile_summary`, `apply` and `__call__`.  Attributes derived at build
time from the iteration tree (the squeezable dimensions of lines 534-536,
the profiled sections of `_profile_sections`) are carried as data. -/

/-- A profiled section: the timer label plus the static estimates and the
governing dimensions of its iteration space (`self.sections`). -/
structure SecInfo where
  timer : String
  ops : Nat
  memory : Nat
  iterDims : List Dim
deriving Repr

structure OpModel where
  /-- `SymbolicData` parameters, in declared order (they precede the
  dimension parameters in `self.parameters`). -/
  dataParams : List SymData
  /-- Dimension parameters (open dimensions plus the loop-engine blocking
  parameters appended at line 104), in declared order. -/
  dimParams : List Dim
  /-- `self._dle_state.arguments`. -/
  dleArgs : List DLEArg
  /-- `self._dle_state.has_applied_blocking`. -/
  hasBlocking : Bool
  /-- `self._dle_state.needs_aggressive_autotuning`. -/
  needsAggressive : Bool
  /-- `[i.base.label.name for i in self._dse_state.output_fields]`. -/
  outputFields : List String
  /-- `[i.dim.parent.name for i in iterations if i.is_Sequential and i.dim.is_Buffered]`
  (lines 534-536), precomputed from the iteration tree. -/
  squeezable : List String
  /-- `self.profiler.s_name`, the key of the profiler struct argument. -/
  profilerName : String
  /-- The profiled sections (`self.sections`). -/
  sections : List SecInfo
  /-- `self.dtype().itemsize`. -/
  itemsize : Nat

/-! ## `OperatorCore._autotune` (lines 517-591) -/

/-- `options['at_blocksize']` (line 663). -/
def atBlocksize : List Nat := [8, 16, 24, 32, 40, 64, 128]

/-- `options['at_squeezer']` (line 662). -/
def atSqueezer : Nat := 3

/-- A block-size candidate: an ordered mapping from blocking-parameter name
to trial value (`OrderedDict` in the source). -/
abbrev Candidate := List (String × Nat)

/-- The keys of `mapper = OrderedDict([(i.argument.name, i) for i in
self._dle_state.arguments])` (line 539). -/
def mapperKeys (op : OpModel) : List String := op.dleArgs.map (fun a => a.argDim.name)

/-- `mapper`, reduced to the attribute consulted per key:
`mapper[k].original_dim.name`. -/
def mapperPairs (op : OpModel) : List (String × String) :=
  op.dleArgs.map (fun a => (a.argDim.name, a.origDim.name))

/-- The governing dimension name of a blocking parameter. -/
def odimOf (op : OpModel) (k : String) : String := (lookupA (mapperPairs op) k).getD ""

/-- Lines 540-541: one square candidate per configured block size. -/
def baseCandidates (op : OpModel) : List Candidate :=
  atBlocksize.map (fun v => (mapperKeys op).map (fun k => (k, v)))

/-- Lines 542-555, the aggressive expansion: (a) the first three candidates
with their last entry replaced by each candidate's last entry, and (b) each
candidate with every non-empty subset of its parameters doubled.  The
source enumerates the subsets via `itertools.combinations`; the
`List.sublistsLen` enumeration used here lists the same subsets (possibly
in a different relative order). -/
def elaborateCandidates (bs : List Candidate) : List Candidate :=
  let part1 := (bs.take 3).flatMap
    (fun b => bs.map (fun i => b.dropLast ++ i.drop (i.length - 1)))
  let part2 := bs.flatMap
    (fun b =>
      (List.range b.length).flatMap
        (fun i =>
          (List.sublistsLen (i + 1) (b.map (fun kv => kv.1))).map
            (fun j => b.map (fun kv => if kv.1 ∈ j then (kv.1, kv.2 * 2) else kv))))
  part1 ++ part2

/-- The candidate set tried by `_autotune`. -/
def buildCandidates (op : OpModel) : List Candidate :=
  let bs := baseCandidates op
  if op.needsAggressive then bs ++ elaborateCandidates bs else bs

/-- Lines 525-531: clone the argument mapping and substitute a private copy
for every output field, so that trial runs do not touch caller-visible
data. -/
def atSetup (op : OpModel) (args : Args) : Args :=
  args.map (fun kv => (kv.1, if kv.1 ∈ op.outputFields then copyVal kv.2 else kv.2))

/-- The per-candidate loop over `at_arguments.items()` (lines 561-573),
threading the mutated mapping and returning whether the candidate is legal.
For a blocking parameter the trial value is bound if it does not exceed
`mapper[k].iteration.end(handle)` where `handle` is the resolved extent of
the governing dimension; on an illegal value the loop breaks, leaving the
partial updates in place.  `Iteration.end` lives in `devito.nodes`, outside
this module; per the spec the end of the blocked iteration is the resolved
extent of its governing dimension, so a trial value is legal when it is at
most that extent, and a `handle` that is not a resolved integer compares
unfavourably (Python 2 orders `None` below all integers), making the
candidate illegal. -/
def tcGo (op : OpModel) (cand : Candidate) : Args → List String → Args × Bool
  | cur, [] => (cur, true)
  | cur, k :: ks =>
    match lookupA cand k with
    | some val =>
      match lookupA cur (odimOf op k) with
      | some (.natV e) =>
        if val ≤ e then tcGo op cand (setA cur k (.natV val)) ks else (cur, false)
      | _ => (cur, false)
    | none =>
      if k ∈ op.squeezable then tcGo op cand (setA cur k (.natV atSqueezer)) ks
      else tcGo op cand cur ks

def tryCandidate (op : OpModel) (cand : Candidate) (cur : Args) : Args × Bool :=
  tcGo op cand cur (cur.map (fun kv => kv.1))

/-- `timings[tuple(blocksize.items())] = elapsed` (line 582): OrderedDict
insertion — overwrite in place if the candidate was already timed, else
append. -/
def recordTiming (tms : List (Candidate × ℚ)) (c : Candidate) (t : ℚ) :
    List (Candidate × ℚ) :=
  if c ∈ tms.map (fun p => p.1) then
    tms.map (fun p => if p.1 = c then (c, t) else p)
  else tms ++ [(c, t)]

/-- The main candidate loop (lines 559-584): try each candidate in set
order; skip illegal ones; otherwise add the profiler struct, execute the
kernel on the trial mapping and record the elapsed time.  The measured
elapsed time of a trial run is abstracted as an oracle `time` of the
candidate. -/
def atLoop (op : OpModel) (time : Candidate → ℚ) :
    List Candidate → Args → List (Candidate × ℚ) → Args × List (Candidate × ℚ)
  | [], cur, tms => (cur, tms)
  | c :: cs, cur, tms =>
    let r := tryCandidate op c cur
    if r.2 then
      let cur2 := setA r.1 op.profilerName Value.profV
      atLoop op time cs cur2 (recordTiming tms c (time c))
    else atLoop op time cs r.1 tms

/-- The whole search: candidates applied to the cloned mapping. -/
def autotuneRun (op : OpModel) (time : Candidate → ℚ) (args : Args) :
    Args × List (Candidate × ℚ) :=
  atLoop op time (buildCandidates op) (atSetup op args) []

/-- `min(timings, key=timings.get)` (line 586): Python `min` keeps the
first element and replaces it only on a strictly smaller key, so the first
minimum in iteration order wins. -/
def minBy2 {α : Type} : (α × ℚ) → List (α × ℚ) → (α × ℚ)
  | b, [] => b
  | b, x :: xs => minBy2 (if x.2 < b.2 then x else b) xs

/-- Lines 587-589: write the winning block sizes back into the caller's
argument mapping (`arguments[k] = best[k]` for `k in mapper`); a mapper key
missing from the winning candidate would be a `KeyError`. -/
def writeBack (mk : List String) (best : Candidate) (args : Args) : Except String Args :=
  args.mapM
    (fun kv =>
      if kv.1 ∈ mk then
        match lookupA best kv.1 with
        | some v => Except.ok (kv.1, Value.natV v)
        | none => Except.error "KeyError: blocking parameter missing from best candidate"
      else Except.ok kv)

/-- `OperatorCore._autotune`: a no-op unless blocking was applied; with no
recorded timing, `min` over the empty dict raises `ValueError`. -/
def autotuneFn (op : OpModel) (time : Candidate → ℚ) (args : Args) : Except String Args :=
  if op.hasBlocking then
    match (autotuneRun op time args).2 with
    | [] => .error "ValueError: min() arg is an empty sequence"
    | t :: ts => writeBack (mapperKeys op) (minBy2 t ts).1 args
  else .ok args

/-- The legality predicate that the candidate loop implements, stated
against the resolved extents `ext` of the governing dimensions: every
trial value is at most the extent of its governing dimension. -/
def legalCand (op : OpModel) (ext : String → Nat) (cand : Candidate) : Bool :=
  cand.all (fun kv => kv.2 ≤ ext (odimOf op kv.1))

/-! ## The call-time pipeline: `arguments`, `_profile_summary`, `apply`, `__call__` -/

/-- `arguments = OrderedDict([(arg.name, arg) for arg in self.parameters])`
(line 128): data parameters first, then dimension parameters. -/
def initialArgs (op : OpModel) : Args :=
  op.dataParams.map (fun p => (p.name, Value.arrV p)) ++
    op.dimParams.map (fun d => (d.name, Value.dimV d))

def dataNames (op : OpModel) : List String := op.dataParams.map (fun p => p.name)

/-- `OperatorBasic.arguments` / `OperatorCore.arguments` (lines 118-201):
keyword overrides, positional traversal with open-dimension inference,
buffered-parent propagation, loop-engine block sizes, dimension-argument
resolution, optional autotuning, and the profiler struct.  `pos` carries
the names of the positional arguments; when none are given the source
defaults `args` to `self.parameters`, whose names are the parameter names
in order.  `at` is the `autotune` keyword flag. -/
def argumentsFn (op : OpModel) (time : Candidate → ℚ) (pos : List String)
    (kw : List (String × KwVal)) (at_ : Bool) : Except String (Args × DimSizes) := do
  let args0 := initialArgs op
  let args1 ← applyOverrides (dataNames op) kw args0
  let posNames := if pos.isEmpty then args0.map (fun kv => kv.1) else pos
  let (args2, ds0) ← bindPositional kw args1 posNames
  let ds1 := propagateBuffered ds0
  let (dlePairs, at2) ← bindDLEArgs ds1 at_ op.dleArgs
  let ds2 := updateSizes ds1 dlePairs
  let args3 ← resolveDimArgs args2 ds2
  let args4 ← if at2 then autotuneFn op time args3 else Except.ok args3
  let args5 := setA args4 op.profilerName Value.profV
  Except.ok (args5, ds2)

/-- `dims[i]` of line 485: a buffered governing dimension stands for its
parent when resolving extents. -/
def dimKeyOf (d : Dim) : String :=
  match d with
  | .buffered _ p => p.name
  | .plain b => b.name

/-- Modelled from the spec: `Iteration.extent` lives in `devito.nodes`,
outside this module.  The spec (§4.5) defines the flop count over the
product of each governing dimension's realized extent, which line 491
obtains as `i.extent(finish=dim_sizes.get(dims[i]))`; the realized extent
is the resolved size of the (parent of a buffered) governing dimension,
falling back to the declared size. -/
def realizedExtent (ds : DimSizes) (d : Dim) : Except String Nat :=
  match lookupSize ds (dimKeyOf d) with
  | some n => .ok n
  | none =>
    match d.size with
    | some s => .ok s
    | none => .error "unresolved iteration extent"

/-- `i.dim.size or dim_sizes[dims[i]]` (line 497); note the truthiness of
`or`: a declared size of `0` also falls through to the `dim_sizes` lookup,
and a missing entry is a `KeyError`. -/
def dataExtent (ds : DimSizes) (d : Dim) : Except String Nat :=
  if d.size.getD 0 ≠ 0 then .ok (d.size.getD 0)
  else
    match lookupSize ds (dimKeyOf d) with
    | some n => .ok n
    | none => .error "KeyError: unresolved data extent"

/-- Python list/tuple comparison on integer sequences (lexicographic). -/
def listLtNat : List Nat → List Nat → Bool
  | [], [] => false
  | [], _ :: _ => true
  | _ :: _, [] => false
  | a :: as_, b :: bs => if a < b then true else if b < a then false else listLtNat as_ bs

/-- Python comparison of `PerfEntry` namedtuples: lexicographic over
`(time, gflopss, oi, itershape, datashape)`. -/
def entryLtB (a b : PerfEntry) : Bool :=
  if a.time < b.time then true
  else if b.time < a.time then false
  else if a.gflopss < b.gflopss then true
  else if b.gflopss < a.gflopss then false
  else if a.oi < b.oi then true
  else if b.oi < a.oi then false
  else if listLtNat a.itershape b.itershape then true
  else if listLtNat b.itershape a.itershape then false
  else listLtNat a.datashape b.datashape

/-- `max(summary, key=summary.get)`: first maximal entry in insertion
order wins (Python `max` replaces only on strictly greater). -/
def maxByEntry : List (String × PerfEntry) → Option (String × PerfEntry)
  | [] => none
  | x :: xs => some (xs.foldl (fun acc y => if entryLtB acc.2 y.2 then y else acc) x)

/-- Line 509: `summary['main'] = summary.pop(max(summary, key=summary.get))`.
`max` over an empty summary raises `ValueError`; popping removes the entry
and re-inserting appends it under the fresh key `'main'`. -/
def renameMain (entries : List (String × PerfEntry)) :
    Except String (List (String × PerfEntry)) :=
  match maxByEntry entries with
  | none => .error "ValueError: max() arg is an empty sequence"
  | some m => .ok ((entries.filter (fun p => p.1 ≠ m.1)) ++ [("main", m.2)])

/-- `OperatorCore._profile_summary` (lines 479-511): per-section metrics
from the static estimates, the resolved extents and the measured timings
(`timings` abstracts `self.profiler.timings`). -/
def profileSummaryFn (op : OpModel) (ds : DimSizes) (timings : String → ℚ) :
    Except String (List (String × PerfEntry)) := do
  let entries ← op.sections.mapM
    (fun s => do
      let ish ← s.iterDims.mapM (realizedExtent ds)
      let dsh ← s.iterDims.mapM (dataExtent ds)
      Except.ok (s.timer, summaryEntry s.ops s.memory op.itemsize ish dsh (timings s.timer)))
  renameMain entries

/-- `OperatorCore.apply` (lines 427-443): bind the arguments, invoke the
native kernel with them (the invocation itself is opaque to this model and
happens only after binding succeeds), and return the performance summary. -/
def applyFn (op : OpModel) (time : Candidate → ℚ) (timings : String → ℚ)
    (pos : List String) (kw : List (String × KwVal)) (at_ : Bool) :
    Except String (List (String × PerfEntry)) := do
  let (_, ds) ← argumentsFn op time pos kw at_
  profileSummaryFn op ds timings

/-- `OperatorCore.__call__` (lines 424-425): `self.apply(*args, **kwargs)`
with no `return` statement — the summary built by `apply` is discarded and
the call returns `None`. -/
def callFn (op : OpModel) (time : Candidate → ℚ) (timings : String → ℚ)
    (pos : List String) (kw : List (String × KwVal)) (at_ : Bool) :
    Except String Unit := do
  let _ ← applyFn op time timings pos kw at_
  Except.ok ()

/-! ## `OperatorBasic._schedule_expressions`, redundancy removal (lines 313-334)

```
mapper = {}
for k, v in FindSections().visit(processed).items():
    candidate = k[-1]
    if not IsPerfectIteration().visit(candidate):
        continue
    found = set()
    trimmed = []
    for n in v:
        if n.is_Expression:
            if n.stencil not in found:
                trimmed.append(n)
                found.add(n.stencil)
        else:
            trimmed.append(n)
    mapper[candidate] = Iteration(trimmed, **candidate.args_frozen)
processed = Transformer(mapper).visit(processed)
```
-/

/-- A node of the scheduled tree, as far as the trimming pass observes it:
an expression (identified by its stencil), some other leaf node, or an
iteration over a body. -/
inductive TNode where
  | exprN (stencil : Nat)
  | elemN (tag : Nat)
  | iterN (dim : Nat) (body : List TNode)

/-- Modelled from the spec: `IsPerfectIteration` lives in
`devito.visitors`, outside this module.  Per the spec (§4.1 step 4 and the
glossary) a perfect iteration is one whose body is a flat run of leaf
nodes with no further nested loop. -/
def isPerfectBody (body : List TNode) : Bool :=
  body.all (fun n => match n with | .iterN _ _ => false | _ => true)

/-- The inner `for n in v` loop: keep a node unless it is an expression
whose stencil is already in `found`. -/
def trimBody : List TNode → List Nat → List TNode
  | [], _ => []
  | .exprN s :: rest, found =>
    if s ∈ found then trimBody rest found else .exprN s :: trimBody rest (s :: found)
  | n :: rest, found => n :: trimBody rest found

mutual

/-- The whole pass: rebuild the tree, trimming the body of every perfect
iteration (the `Transformer(mapper)` application). -/
def trimTree : TNode → TNode
  | .exprN s => .exprN s
  | .elemN t => .elemN t
  | .iterN d body =>
    if isPerfectBody body then .iterN d (trimBody body [])
    else .iterN d (trimTreeList body)

def trimTreeList : List TNode → List TNode
  | [] => []
  | n :: ns => trimTree n :: trimTreeList ns

end

/-- True unless the node is an expression with the given stencil. -/
def neExpr (s : Nat) : TNode → Bool
  | .exprN t => t != s
  | _ => true

/-- The specification-side statement of the trimming: keep each node,
removing every later expression that duplicates an earlier one's stencil
(first occurrence wins, order preserved). -/
def dedupFirst : List TNode → List TNode
  | [] => []
  | .exprN s :: rest => .exprN s :: dedupFirst (rest.filter (neExpr s))
  | n :: rest => n :: dedupFirst rest
termination_by l => l.length
decreasing_by
  all_goals simp only [List.length_cons]
  · exact Nat.lt_succ_of_le (rest.length_filter_le _)
  · exact Nat.lt_succ_self _

/-! ## Association-list lemmas -/

theorem lookupA_setA_self {α : Type} (l : List (String × α)) (k : String) (v : α) :
    lookupA (setA l k v) k = some v := by
  induction l with
  | nil => simp [setA, lookupA]
  | cons kv rest ih =>
    by_cases h : kv.1 = k
    · simp [setA, h, lookupA]
    · simp [setA, h, lookupA, ih]

theorem lookupA_setA_ne {α : Type} (l : List (String × α)) (k k2 : String) (v : α)
    (h : k2 ≠ k) : lookupA (setA l k v) k2 = lookupA l k2 := by
  have hk2 : ¬(k = k2) := fun e => h e.symm
  induction l with
  | nil => simp [setA, lookupA, hk2]
  | cons kv rest ih =>
    by_cases hk : kv.1 = k
    · subst hk
      simp [setA, lookupA, hk2, h]
    · simp only [setA, if_neg hk, lookupA]
      by_cases h2 : kv.1 = k2 <;> simp [h2, ih]

theorem lookupA_mem {α : Type} {l : List (String × α)} {k : String} {v : α}
    (h : lookupA l k = some v) : (k, v) ∈ l := by
  induction l with
  | nil => simp [lookupA] at h
  | cons kv rest ih =>
    obtain ⟨k1, v1⟩ := kv
    by_cases hk : k1 = k
    · subst hk
      simp only [lookupA, if_pos rfl] at h
      cases h
      exact List.mem_cons_self _ _
    · simp only [lookupA, if_neg hk] at h
      exact List.mem_cons_of_mem _ (ih h)

theorem lookupA_eq_none_iff {α : Type} (l : List (String × α)) (k : String) :
    lookupA l k = none ↔ k ∉ l.map (fun kv => kv.1) := by
  induction l with
  | nil => simp [lookupA]
  | cons kv rest ih =>
    by_cases hk : kv.1 = k
    · simp [lookupA, hk]
    · have hk2 : ¬(k = kv.1) := fun e => hk e.symm
      simp [lookupA, hk, ih, hk2]

theorem lookupA_isSome_iff {α : Type} (l : List (String × α)) (k : String) :
    (lookupA l k).isSome ↔ k ∈ l.map (fun kv => kv.1) := by
  induction l with
  | nil => simp [lookupA]
  | cons kv rest ih =>
    by_cases hk : kv.1 = k
    · simp [lookupA, hk]
    · have hk2 : ¬(k = kv.1) := fun e => hk e.symm
      simp [lookupA, hk, ih, hk2]

theorem lookupA_of_mem_nodup {α : Type} {l : List (String × α)} {k : String} {v : α}
    (hnd : (l.map (fun kv => kv.1)).Nodup) (hmem : (k, v) ∈ l) :
    lookupA l k = some v := by
  induction l with
  | nil => simp at hmem
  | cons kv rest ih =>
    simp only [List.map_cons, List.nodup_cons] at hnd
    rcases List.mem_cons.1 hmem with h | h
    · subst h
      simp [lookupA]
    · have hk : kv.1 ≠ k := by
        intro e
        exact hnd.1 (e ▸ List.mem_map.2 ⟨(k, v), h, rfl⟩)
      simp [lookupA, hk, ih hnd.2 h]

theorem lookupA_mapVal {α β : Type} (l : List (String × α)) (g : String → α → β)
    (k : String) :
    lookupA (l.map (fun p => (p.1, g p.1 p.2))) k = (lookupA l k).map (g k) := by
  induction l with
  | nil => simp [lookupA]
  | cons kv rest ih =>
    by_cases hk : kv.1 = k
    · subst hk
      simp [lookupA]
    · simp [lookupA, hk, ih]

theorem setA_keys_of_mem {α : Type} (l : List (String × α)) (k : String) (v : α)
    (h : k ∈ l.map (fun kv => kv.1)) :
    (setA l k v).map (fun kv => kv.1) = l.map (fun kv => kv.1) := by
  induction l with
  | nil => simp at h
  | cons kv rest ih =>
    by_cases hk : kv.1 = k
    · simp [setA, hk]
    · have : k ∈ rest.map (fun kv => kv.1) := by
        rcases List.mem_map.1 h with ⟨p, hp, he⟩
        rcases List.mem_cons.1 hp with h1 | h1
        · exact absurd (h1 ▸ he) hk
        · exact List.mem_map.2 ⟨p, h1, he⟩
      simp [setA, hk, ih this]

theorem lookupSize_setSize_self (ds : DimSizes) (d : Dim) (v : Nat) :
    lookupSize (setSize ds d v) d.name = some v := by
  induction ds with
  | nil => simp [setSize, lookupSize]
  | cons dn rest ih =>
    by_cases h : dn.1.name = d.name
    · simp [setSize, h, lookupSize]
    · simp [setSize, h, lookupSize, ih]

/-! ## Claim theorems, part 1 -/

/-- C10: an operator is constructible only from a collection of stencils
whose left-hand sides share exactly one dtype.  Two distinct lhs dtypes,
and also an empty stencil collection, make `_retrieve_dtype` raise
`RuntimeError` (which propagates out of `__init__`, line 78, so no
operator is produced); a successful retrieval returns the dtype shared by
every stencil. -/
theorem retrieve_dtype_single :
    (retrieveDtype [] = Except.error "Stencil types mismatch.") ∧
    (∀ (ss : List Stencil) (s1 s2 : Stencil), s1 ∈ ss → s2 ∈ ss →
      s1.lhsDtype ≠ s2.lhsDtype →
      retrieveDtype ss = Except.error "Stencil types mismatch.") ∧
    (∀ (ss : List Stencil) (d : String), retrieveDtype ss = Except.ok d →
      ∀ s ∈ ss, s.lhsDtype = d) := by
  refine ⟨rfl, ?_, ?_⟩
  · intro ss s1 s2 h1 h2 hne
    unfold retrieveDtype
    cases hd : (ss.map (fun s => s.lhsDtype)).dedup with
    | nil => rfl
    | cons x tl =>
      cases tl with
      | nil =>
        exfalso
        have m1 : s1.lhsDtype ∈ (ss.map (fun s => s.lhsDtype)).dedup := by
          rw [List.mem_dedup]
          exact List.mem_map.2 ⟨s1, h1, rfl⟩
        have m2 : s2.lhsDtype ∈ (ss.map (fun s => s.lhsDtype)).dedup := by
          rw [List.mem_dedup]
          exact List.mem_map.2 ⟨s2, h2, rfl⟩
        rw [hd] at m1 m2
        simp at m1 m2
        exact hne (m1.trans m2.symm)
      | cons y tl2 => rfl
  · intro ss d hok s hs
    unfold retrieveDtype at hok
    cases hd : (ss.map (fun s => s.lhsDtype)).dedup with
    | nil => rw [hd] at hok; exact absurd hok (by simp)
    | cons x tl =>
      cases tl with
      | nil =>
        rw [hd] at hok
        simp only [Except.ok.injEq] at hok
        subst hok
        have m : s.lhsDtype ∈ (ss.map (fun s => s.lhsDtype)).dedup := by
          rw [List.mem_dedup]
          exact List.mem_map.2 ⟨s, hs, rfl⟩
        rw [hd] at m
        simpa using m
      | cons y tl2 => rw [hd] at hok; exact absurd hok (by simp)

theorem retrieve_dtype_single_witness :
    retrieveDtype [⟨"float32"⟩, ⟨"float64"⟩] = Except.error "Stencil types mismatch." :=
  retrieve_dtype_single.2.1 [⟨"float32"⟩, ⟨"float64"⟩] ⟨"float32"⟩ ⟨"float64"⟩
    (by decide) (by decide) (by decide)

/-- C3: the reported per-section metrics are exactly
`flops = ops * ∏ itershape`, `traffic = memory * ∏ datashape * itemsize`,
`oi = flops / traffic` and `gflopss = (flops / 10^9) / time`, and at
`ops = 2`, `memory = 1`, shapes `(10, 10)`, element size `8` bytes and
`t = 0.001 s` they evaluate to `flops = 200`, `traffic = 800` bytes,
`oi = 1/4` and `gflopss = (200 / 10^9) / 0.001 = 1/5000`. -/
theorem profile_metrics_exact :
    (∀ (ops memory itemsize : Nat) (ish dsh : List Nat) (t : ℚ),
      (summaryEntry ops memory itemsize ish dsh t).oi =
        ((ops : ℚ) * ((prodShape ish : Nat) : ℚ)) /
          ((memory : ℚ) * ((prodShape dsh : Nat) : ℚ) * (itemsize : ℚ)) ∧
      (summaryEntry ops memory itemsize ish dsh t).gflopss =
        (((ops : ℚ) * ((prodShape ish : Nat) : ℚ)) / 10 ^ 9) / t ∧
      (summaryEntry ops memory itemsize ish dsh t).time = t ∧
      (summaryEntry ops memory itemsize ish dsh t).itershape = ish ∧
      (summaryEntry ops memory itemsize ish dsh t).datashape = dsh) ∧
    ((2 : ℚ) * ((prodShape [10, 10] : Nat) : ℚ) = 200) ∧
    ((1 : ℚ) * ((prodShape [10, 10] : Nat) : ℚ) * (8 : ℚ) = 800) ∧
    (summaryEntry 2 1 8 [10, 10] [10, 10] (1 / 1000) =
      { time := 1 / 1000, gflopss := 1 / 5000, oi := 1 / 4,
        itershape := [10, 10], datashape := [10, 10] }) := by
  refine ⟨fun ops memory itemsize ish dsh t => ⟨rfl, rfl, rfl, rfl, rfl⟩, ?_, ?_, ?_⟩
  · norm_num [prodShape]
  · norm_num [prodShape]
  · simp only [summaryEntry, prodShape]
    norm_num

/-- C5, counterexample to the claim as stated: a loop-engine value of `0`
is supplied but, being falsy under `if i.value:`, it is not used directly
and autotuning is not disabled — the parameter falls back to the dimension
extent `7` with the autotune flag still `true`. -/
theorem dle_fixed_zero_counterexample :
    resolveDLEArg [(Dim.plain ⟨"x", none⟩, 7)] true
        ⟨Dim.plain ⟨"x_block", none⟩, Dim.plain ⟨"x", none⟩, some (BlockVal.fixed 0)⟩ =
      Except.ok ((Dim.plain ⟨"x_block", none⟩, 7), true) ∧
    (Except.ok ((Dim.plain ⟨"x_block", none⟩, 7), true) :
        Except String ((Dim × Nat) × Bool)) ≠
      Except.ok ((Dim.plain ⟨"x_block", none⟩, 0), false) := by
  constructor
  · rfl
  · intro h
    simp at h

/-- C5, amended: for a loop-engine blocking parameter whose governing
dimension resolves to extent `n`: a truthy fixed value `v ≠ 0` is bound
directly and disables autotuning; an absent value (and likewise a falsy
fixed `0`) binds the full dimension extent and leaves the autotune flag
unchanged; a derivation function is applied to the extent, also leaving
the flag unchanged. -/
theorem dle_value_binding (ds : DimSizes) (flag : Bool) (i : DLEArg) (n : Nat)
    (hres : (lookupSize ds i.origDim.name).orElse (fun _ => i.origDim.size) = some n) :
    (∀ v, i.value = some (BlockVal.fixed v) → v ≠ 0 →
      resolveDLEArg ds flag i = Except.ok ((i.argDim, v), false)) ∧
    (i.value = none → resolveDLEArg ds flag i = Except.ok ((i.argDim, n), flag)) ∧
    (i.value = some (BlockVal.fixed 0) →
      resolveDLEArg ds flag i = Except.ok ((i.argDim, n), flag)) ∧
    (∀ f, i.value = some (BlockVal.derived f) →
      resolveDLEArg ds flag i = Except.ok ((i.argDim, f n), flag)) := by
  refine ⟨?_, ?_, ?_, ?_⟩
  · intro v hv hne
    simp [resolveDLEArg, hres, hv, hne]
  · intro hv
    simp [resolveDLEArg, hres, hv]
  · intro hv
    simp [resolveDLEArg, hres, hv]
  · intro f hv
    simp [resolveDLEArg, hres, hv]

theorem dle_value_binding_witness :
    resolveDLEArg [(Dim.plain ⟨"x", none⟩, 7)] true
        ⟨Dim.plain ⟨"x_block", none⟩, Dim.plain ⟨"x", none⟩, some (BlockVal.fixed 5)⟩ =
      Except.ok ((Dim.plain ⟨"x_block", none⟩, 5), false) :=
  (dle_value_binding [(Dim.plain ⟨"x", none⟩, 7)] true
    ⟨Dim.plain ⟨"x_block", none⟩, Dim.plain ⟨"x", none⟩, some (BlockVal.fixed 5)⟩ 7
    rfl).1 5 rfl (by decide)

/-- C2: for an open indexing dimension of a data parameter with array
extent `e` on that axis, the resolution precedence is: a same-named
integer keyword argument wins (subject to the non-buffered
`value ≤ extent` assertion); otherwise a limit already derived from an
earlier parameter is kept, asserted to be at most the current extent
unless the dimension is buffered; otherwise the array extent is adopted.
In particular, binding a parameter of shape `(10, 20)` indexed by open
dimensions `(x, y)` with no keyword arguments resolves `x ↦ 10, y ↦ 20`. -/
theorem open_dim_resolution :
    (∀ (kw : List (String × KwVal)) (ds : DimSizes) (dim : Dim) (e v : Nat),
      lookupA kw dim.name = some (KwVal.natK v) →
      (dim.isBuffered = true ∨ v ≤ e) →
      resolveOpenDim kw ds dim (some e) = Except.ok (setSize ds dim v)) ∧
    (∀ (kw : List (String × KwVal)) (ds : DimSizes) (dim : Dim) (e w : Nat),
      lookupA kw dim.name = none →
      lookupSize ds dim.name = some w →
      (dim.isBuffered = true ∨ w ≤ e) →
      resolveOpenDim kw ds dim (some e) = Except.ok ds) ∧
    (∀ (kw : List (String × KwVal)) (ds : DimSizes) (dim : Dim) (e : Nat),
      lookupA kw dim.name = none →
      lookupSize ds dim.name = none →
      resolveOpenDim kw ds dim (some e) = Except.ok (setSize ds dim e)) ∧
    (∀ (kw : List (String × KwVal)) (ds : DimSizes) (dim : Dim) (e w : Nat),
      lookupA kw dim.name = none →
      lookupSize ds dim.name = some w →
      dim.isBuffered = false →
      e < w →
      resolveOpenDim kw ds dim (some e) =
        Except.error "AssertionError: derived size exceeds data extent") ∧
    (processParam []
        ([] : DimSizes)
        ⟨"u", [10, 20], [Dim.plain ⟨"x", none⟩, Dim.plain ⟨"y", none⟩], 0⟩ =
      Except.ok [(Dim.plain ⟨"x", none⟩, 10), (Dim.plain ⟨"y", none⟩, 20)]) := by
  refine ⟨?_, ?_, ?_, ?_, rfl⟩
  · intro kw ds dim e v hkw hle
    simp only [resolveOpenDim, hkw, bind, Except.bind, lookupSize_setSize_self]
    rcases hle with hb | hv
    · simp [hb]
    · cases hbuf : dim.isBuffered <;> simp [hv]
  · intro kw ds dim e w hkw hds hle
    simp only [resolveOpenDim, hkw, bind, Except.bind, hds]
    rcases hle with hb | hv
    · simp [hb]
    · cases hbuf : dim.isBuffered <;> simp [hv]
  · intro kw ds dim e hkw hds
    simp [resolveOpenDim, hkw, bind, Except.bind, hds]
  · intro kw ds dim e w hkw hds hbuf hlt
    simp [resolveOpenDim, hkw, bind, Except.bind, hds, hbuf, Nat.not_le.2 hlt]

theorem open_dim_resolution_witness :
    resolveOpenDim [("y", KwVal.natK 15)] [] (Dim.plain ⟨"y", none⟩) (some 20) =
      Except.ok [(Dim.plain ⟨"y", none⟩, 15)] :=
  open_dim_resolution.1 [("y", KwVal.natK 15)] [] (Dim.plain ⟨"y", none⟩) 20 15
    rfl (Or.inr (by decide))

/-! ## Override lemmas (C4) -/

/-- The shape of the array currently bound at a name (if any). -/
def argShape (args : Args) (n : String) : Option (List Nat) :=
  match lookupA args n with
  | some (.arrV c) => some c.shape
  | _ => none

def isArrK : KwVal → Bool
  | .arrK _ => true
  | _ => false

def isArrVOpt : Option Value → Bool
  | some (.arrV _) => true
  | _ => false

theorem argShape_setA_arr (args : Args) (m n : String) (b : SymData) :
    argShape (setA args m (Value.arrV b)) n =
      if n = m then some b.shape else argShape args n := by
  by_cases h : n = m
  · subst h
    simp [argShape, lookupA_setA_self]
  · simp [argShape, h, lookupA_setA_ne args m n _ h]

theorem ovLoop_cons_arrV (args : Args) (m : String) (b cur : SymData)
    (rest : List (String × KwVal)) (hcur : lookupA args m = some (Value.arrV cur)) :
    ovLoop args ((m, KwVal.arrK b) :: rest) =
      if cur.shape = b.shape then ovLoop (setA args m (Value.arrV b)) rest
      else Except.error "Shapes must match" := by
  simp [ovLoop, hcur]

theorem ovLoop_cons_ok (l : List (String × KwVal)) (args res : Args) (m : String)
    (b : KwVal) (h : ovLoop args ((m, b) :: l) = Except.ok res) :
    ∃ cur, b = KwVal.arrK cur ∧
      (∃ prev, lookupA args m = some (Value.arrV prev) ∧ prev.shape = cur.shape ∧
        ovLoop (setA args m (Value.arrV cur)) l = Except.ok res) := by
  cases b with
  | natK v => simp [ovLoop] at h
  | arrK cur =>
    refine ⟨cur, rfl, ?_⟩
    cases hcur : lookupA args m with
    | none => simp [ovLoop, hcur] at h
    | some cv =>
      cases cv with
      | arrV prev =>
        rw [ovLoop_cons_arrV args m cur prev l hcur] at h
        by_cases hsh : prev.shape = cur.shape
        · exact ⟨prev, rfl, hsh, by rwa [if_pos hsh] at h⟩
        · rw [if_neg hsh] at h
          exact absurd h (by simp)
      | dimV d => simp [ovLoop, hcur] at h
      | natV v => simp [ovLoop, hcur] at h
      | profV => simp [ovLoop, hcur] at h

theorem ovLoop_shape_invariant (l : List (String × KwVal)) (args res : Args)
    (h : ovLoop args l = Except.ok res) : ∀ n, argShape res n = argShape args n := by
  induction l generalizing args with
  | nil =>
    simp only [ovLoop, Except.ok.injEq] at h
    subst h
    intro n
    rfl
  | cons q rest ih =>
    obtain ⟨m, w⟩ := q
    obtain ⟨cur, hw, prev, hcur, hsh, hrec⟩ := ovLoop_cons_ok rest args res m w h
    intro n
    rw [ih _ hrec n, argShape_setA_arr]
    by_cases hn : n = m
    · subst hn
      simp [argShape, hcur, hsh]
    · simp [hn]

theorem ovLoop_error_of_mismatch (l : List (String × KwVal)) (args : Args)
    (name : String) (a : SymData) (shp : List Nat)
    (hmem : (name, KwVal.arrK a) ∈ l)
    (hshape : argShape args name = some shp)
    (hne : a.shape ≠ shp)
    (hgood : ∀ q ∈ l, isArrK q.2 = true ∧ isArrVOpt (lookupA args q.1) = true)
    (hnd : (l.map (fun q => q.1)).Nodup) :
    ovLoop args l = Except.error "Shapes must match" := by
  induction l generalizing args with
  | nil => simp at hmem
  | cons q rest ih =>
    obtain ⟨m, w⟩ := q
    obtain ⟨hq1, hq2⟩ := hgood (m, w) (List.mem_cons_self _ _)
    cases w with
    | natK v => simp [isArrK] at hq1
    | arrK b =>
      cases hcur : lookupA args m with
      | none => rw [hcur] at hq2; simp [isArrVOpt] at hq2
      | some cv =>
        cases cv with
        | arrV cur =>
          rw [ovLoop_cons_arrV args m b cur rest hcur]
          rcases List.mem_cons.1 hmem with hh | ht
          · have hm : name = m := congrArg Prod.fst hh
            have hb : KwVal.arrK a = KwVal.arrK b := congrArg Prod.snd hh
            have hba : a = b := by injection hb
            subst hba
            subst hm
            have hcs : cur.shape = shp := by
              rw [argShape, hcur] at hshape
              injection hshape
            rw [hcs]
            rw [if_neg (fun e => hne e.symm)]
          · have hmname : m ≠ name := by
              intro e
              subst e
              simp only [List.map_cons, List.nodup_cons] at hnd
              exact hnd.1 (List.mem_map.2 ⟨(m, KwVal.arrK a), ht, rfl⟩)
            by_cases hsh : cur.shape = b.shape
            · rw [if_pos hsh]
              refine ih (setA args m (Value.arrV b)) ht ?_ ?_ ?_
              · rw [argShape_setA_arr, if_neg (fun e => hmname e.symm)]
                exact hshape
              · intro p hp
                obtain ⟨hp1, hp2⟩ := hgood p (List.mem_cons_of_mem _ hp)
                refine ⟨hp1, ?_⟩
                by_cases hpm : p.1 = m
                · rw [hpm, lookupA_setA_self]
                  rfl
                · rw [lookupA_setA_ne args m p.1 _ hpm]
                  exact hp2
              · exact (List.nodup_cons.1 (by simpa using hnd)).2
            · rw [if_neg hsh]
        | dimV d => rw [hcur] at hq2; simp [isArrVOpt] at hq2
        | natV v => rw [hcur] at hq2; simp [isArrVOpt] at hq2
        | profV => rw [hcur] at hq2; simp [isArrVOpt] at hq2

theorem ovLoop_untouched (l : List (String × KwVal)) (args res : Args)
    (h : ovLoop args l = Except.ok res) (n : String)
    (hn : n ∉ l.map (fun q => q.1)) : lookupA res n = lookupA args n := by
  induction l generalizing args with
  | nil =>
    simp only [ovLoop, Except.ok.injEq] at h
    subst h
    rfl
  | cons q rest ih =>
    obtain ⟨m, w⟩ := q
    simp only [List.map_cons, List.mem_cons] at hn
    push_neg at hn
    obtain ⟨cur, hw, prev, hcur, hsh, hrec⟩ := ovLoop_cons_ok rest args res m w h
    rw [ih _ hrec hn.2]
    exact lookupA_setA_ne args m n _ hn.1

theorem ovLoop_replaces (l : List (String × KwVal)) (args res : Args)
    (name : String) (a : SymData)
    (h : ovLoop args l = Except.ok res)
    (hmem : (name, KwVal.arrK a) ∈ l)
    (hnd : (l.map (fun q => q.1)).Nodup) :
    lookupA res name = some (Value.arrV a) := by
  induction l generalizing args with
  | nil => simp at hmem
  | cons q rest ih =>
    obtain ⟨m, w⟩ := q
    obtain ⟨cur, hw, prev, hcur, hsh, hrec⟩ := ovLoop_cons_ok rest args res m w h
    subst hw
    rcases List.mem_cons.1 hmem with hh | ht
    · have hm : name = m := congrArg Prod.fst hh
      have hb : KwVal.arrK a = KwVal.arrK cur := congrArg Prod.snd hh
      have hba : a = cur := by injection hb
      subst hba
      subst hm
      have hnin : name ∉ rest.map (fun q => q.1) :=
        (List.nodup_cons.1 (by simpa using hnd)).1
      rw [ovLoop_untouched rest _ res hrec name hnin]
      exact lookupA_setA_self args name _
    · exact ih _ hrec ht (List.nodup_cons.1 (by simpa using hnd)).2

/-- A small concrete operator used to instantiate theorems with
hypotheses: one data parameter `u` of shape `(4,)` over the open dimension
`x`, no loop blocking, one profiled section. -/
def xDim : Dim := Dim.plain ⟨"x", none⟩

def uData : SymData := ⟨"u", [4], [xDim], 0⟩

def opW : OpModel :=
  { dataParams := [uData]
    dimParams := [xDim]
    dleArgs := []
    hasBlocking := false
    needsAggressive := false
    outputFields := ["u"]
    squeezable := []
    profilerName := "profiler"
    sections := [⟨"loop_x_0", 2, 1, [xDim]⟩]
    itemsize := 8 }

/-- C4: a keyword argument naming a data parameter must match the
parameter's declared shape exactly; on mismatch the binding reports
`"Shapes must match"` and the whole call aborts (both `arguments` and
`apply` return that failure, so no further binding and no native
execution happen); on an exact match the supplied value replaces the
parameter's binding wholesale. -/
theorem override_shape_validation (op : OpModel) (time : Candidate → ℚ)
    (timings : String → ℚ) (pos : List String) (kw : List (String × KwVal))
    (at_ : Bool) (name : String) (a p : SymData)
    (hkw : lookupA kw name = some (KwVal.arrK a))
    (hmem : name ∈ dataNames op)
    (hp : lookupA (initialArgs op) name = some (Value.arrV p))
    (hall : ∀ q ∈ kw, q.1 ∈ dataNames op →
      isArrK q.2 = true ∧ isArrVOpt (lookupA (initialArgs op) q.1) = true)
    (hnodup : (kw.map (fun q => q.1)).Nodup) :
    (a.shape ≠ p.shape →
      applyOverrides (dataNames op) kw (initialArgs op) =
        Except.error "Shapes must match" ∧
      argumentsFn op time pos kw at_ = Except.error "Shapes must match" ∧
      applyFn op time timings pos kw at_ = Except.error "Shapes must match") ∧
    (a.shape = p.shape →
      ∀ res, applyOverrides (dataNames op) kw (initialArgs op) = Except.ok res →
        lookupA res name = some (Value.arrV a)) := by
  have hmem_kw : (name, KwVal.arrK a) ∈ kw := lookupA_mem hkw
  have hmem_l : (name, KwVal.arrK a) ∈ kw.filter (fun q => q.1 ∈ dataNames op) :=
    List.mem_filter.2 ⟨hmem_kw, by simpa using hmem⟩
  have hsub : ((kw.filter (fun q => q.1 ∈ dataNames op)).map (fun q => q.1)).Sublist
      (kw.map (fun q => q.1)) := (List.filter_sublist kw).map (fun q => q.1)
  have hnd_l : ((kw.filter (fun q => q.1 ∈ dataNames op)).map (fun q => q.1)).Nodup :=
    List.Nodup.sublist hsub hnodup
  constructor
  · intro hne
    have hov : applyOverrides (dataNames op) kw (initialArgs op) =
        Except.error "Shapes must match" := by
      refine ovLoop_error_of_mismatch _ _ name a p.shape hmem_l ?_ hne ?_ hnd_l
      · simp [argShape, hp]
      · intro q hq
        have hq2 := List.mem_filter.1 hq
        exact hall q hq2.1 (by simpa using hq2.2)
    refine ⟨hov, ?_, ?_⟩
    · simp [argumentsFn, hov, bind, Except.bind]
    · simp [applyFn, argumentsFn, hov, bind, Except.bind]
  · intro _ res hres
    exact ovLoop_replaces _ _ _ name a hres hmem_l hnd_l

theorem override_shape_validation_witness :
    argumentsFn opW (fun _ => 0) [] [("u", KwVal.arrK ⟨"u", [5], [xDim], 9⟩)] false =
      Except.error "Shapes must match" :=
  ((override_shape_validation opW (fun _ => 0) (fun _ => 0) []
      [("u", KwVal.arrK ⟨"u", [5], [xDim], 9⟩)] false "u" ⟨"u", [5], [xDim], 9⟩ uData
      rfl (by decide) rfl (by decide) (by decide)).1 (by decide)).2.1

/-! ## Trimming lemmas (C6) -/

theorem trimBody_congr (l : List TNode) : ∀ (f1 f2 : List Nat),
    (∀ s, s ∈ f1 ↔ s ∈ f2) → trimBody l f1 = trimBody l f2 := by
  induction l with
  | nil => intro f1 f2 _; rfl
  | cons n rest ih =>
    intro f1 f2 h
    cases n with
    | exprN s =>
      by_cases hs : s ∈ f1
      · simp only [trimBody, if_pos hs, if_pos ((h s).1 hs)]
        exact ih _ _ h
      · have hs2 : s ∉ f2 := fun c => hs ((h s).2 c)
        simp only [trimBody, if_neg hs, if_neg hs2]
        refine congrArg _ (ih _ _ ?_)
        intro t
        simp only [List.mem_cons]
        rw [h t]
    | elemN t =>
      simp only [trimBody]
      rw [ih _ _ h]
    | iterN d b =>
      simp only [trimBody]
      rw [ih _ _ h]

theorem trimBody_filter (l : List TNode) : ∀ (s : Nat) (found : List Nat),
    trimBody l (s :: found) = trimBody (l.filter (neExpr s)) found := by
  induction l with
  | nil => intro s found; rfl
  | cons n rest ih =>
    intro s found
    cases n with
    | exprN t =>
      by_cases hts : t = s
      · subst hts
        simp only [trimBody, if_pos (List.mem_cons_self t found), List.filter_cons]
        have hne : neExpr t (TNode.exprN t) = false := by simp [neExpr]
        rw [hne]
        rw [if_neg Bool.false_ne_true]
        exact ih t found
      · have hkeep : neExpr s (TNode.exprN t) = true := by simp [neExpr, hts]
        rw [List.filter_cons]
        rw [hkeep]
        rw [if_pos rfl]
        by_cases htf : t ∈ found
        · have h1 : t ∈ s :: found := List.mem_cons_of_mem _ htf
          simp only [trimBody, if_pos h1, if_pos htf]
          exact ih s found
        · have h1 : t ∉ s :: found := by
            simp [hts, htf]
          simp only [trimBody, if_neg h1, if_neg htf]
          refine congrArg _ ?_
          rw [trimBody_congr rest (t :: s :: found) (s :: t :: found)
            (by intro u; simp only [List.mem_cons]; tauto)]
          exact ih s (t :: found)
    | elemN t =>
      have hkeep : neExpr s (TNode.elemN t) = true := by simp [neExpr]
      rw [List.filter_cons, hkeep, if_pos rfl]
      simp only [trimBody]
      rw [ih s found]
    | iterN d b =>
      have hkeep : neExpr s (TNode.iterN d b) = true := by simp [neExpr]
      rw [List.filter_cons, hkeep, if_pos rfl]
      simp only [trimBody]
      rw [ih s found]

theorem dedupFirst_nil : dedupFirst [] = [] := by
  rw [dedupFirst]

theorem dedupFirst_expr (s : Nat) (rest : List TNode) :
    dedupFirst (TNode.exprN s :: rest) =
      TNode.exprN s :: dedupFirst (rest.filter (neExpr s)) := by
  rw [dedupFirst]

theorem dedupFirst_elem (t : Nat) (rest : List TNode) :
    dedupFirst (TNode.elemN t :: rest) = TNode.elemN t :: dedupFirst rest := by
  rw [dedupFirst]
  exact fun s h => TNode.noConfusion h

theorem dedupFirst_iter (d : Nat) (b rest : List TNode) :
    dedupFirst (TNode.iterN d b :: rest) = TNode.iterN d b :: dedupFirst rest := by
  rw [dedupFirst]
  exact fun s h => TNode.noConfusion h

theorem trimBody_dedup_aux : ∀ (n : Nat) (l : List TNode), l.length ≤ n →
    trimBody l [] = dedupFirst l := by
  intro n
  induction n with
  | zero =>
    intro l hl
    rw [List.length_eq_zero.1 (Nat.le_zero.1 hl)]
    rw [dedupFirst_nil]
    rfl
  | succ n ih =>
    intro l hl
    cases l with
    | nil => rw [dedupFirst_nil]; rfl
    | cons hd rest =>
      have hr : rest.length ≤ n := Nat.le_of_succ_le_succ hl
      cases hd with
      | exprN s =>
        simp only [trimBody, if_neg (List.not_mem_nil s)]
        rw [trimBody_filter rest s []]
        rw [ih _ (Nat.le_trans (List.length_filter_le _ _) hr)]
        rw [dedupFirst_expr]
      | elemN t =>
        simp only [trimBody]
        rw [ih _ hr]
        rw [dedupFirst_elem]
      | iterN d b =>
        simp only [trimBody]
        rw [ih _ hr]
        rw [dedupFirst_iter]

theorem trimBody_nil_eq_dedupFirst (l : List TNode) : trimBody l [] = dedupFirst l :=
  trimBody_dedup_aux l.length l (Nat.le_refl _)

theorem trimBody_sublist (l : List TNode) : ∀ found, (trimBody l found).Sublist l := by
  induction l with
  | nil => intro found; simp [trimBody]
  | cons n rest ih =>
    intro found
    cases n with
    | exprN s =>
      by_cases hs : s ∈ found
      · simp only [trimBody, if_pos hs]
        exact List.Sublist.cons _ (ih _)
      · simp only [trimBody, if_neg hs]
        exact List.Sublist.cons₂ _ (ih _)
    | elemN t =>
      simp only [trimBody]
      exact List.Sublist.cons₂ _ (ih _)
    | iterN d b =>
      simp only [trimBody]
      exact List.Sublist.cons₂ _ (ih _)

/-- C6: within a perfect iteration (flat body, no nested loop) the pass
rebuilds the iteration with its body trimmed; the trimming removes exactly
the expressions whose stencil duplicates an earlier expression in the same
scope, keeping the first occurrence and preserving the order of the
remaining nodes (the result is the first-occurrence deduplication, a
sublist of the body); in particular two identical expressions collapse
to one. -/
theorem perfect_iteration_dedup (d : Nat) (body : List TNode)
    (hperf : isPerfectBody body = true) :
    trimTree (TNode.iterN d body) = TNode.iterN d (trimBody body []) ∧
    trimBody body [] = dedupFirst body ∧
    (trimBody body []).Sublist body ∧
    trimBody [TNode.exprN 1, TNode.exprN 1] [] = [TNode.exprN 1] := by
  refine ⟨?_, trimBody_nil_eq_dedupFirst body, trimBody_sublist body [], rfl⟩
  simp [trimTree, hperf]

theorem perfect_iteration_dedup_witness :
    trimTree (TNode.iterN 0 [TNode.exprN 1, TNode.exprN 1]) =
      TNode.iterN 0 (trimBody [TNode.exprN 1, TNode.exprN 1] []) :=
  (perfect_iteration_dedup 0 [TNode.exprN 1, TNode.exprN 1] (by decide)).1

/-! ## Autotuner lemmas: selection order (C1) -/

/-- `minByG g` is the candidate-level view of Python `min` with a key
function: keep the accumulator unless a strictly smaller key appears. -/
def minByG {α : Type} (g : α → ℚ) : α → List α → α
  | b, [] => b
  | b, x :: xs => minByG g (if g x < g b then x else b) xs

theorem minBy2_map {α : Type} (g : α → ℚ) : ∀ (l : List α) (b : α),
    minBy2 (b, g b) (l.map (fun c => (c, g c))) = (minByG g b l, g (minByG g b l)) := by
  intro l
  induction l with
  | nil => intro b; rfl
  | cons x xs ih =>
    intro b
    simp only [List.map_cons, minBy2, minByG]
    by_cases h : g x < g b
    · rw [if_pos h, if_pos h]
      exact ih x
    · rw [if_neg h, if_neg h]
      exact ih b

theorem minByG_le {α : Type} (g : α → ℚ) : ∀ (l : List α) (b : α),
    g (minByG g b l) ≤ g b ∧ ∀ x ∈ l, g (minByG g b l) ≤ g x := by
  intro l
  induction l with
  | nil => intro b; exact ⟨le_refl _, by simp⟩
  | cons x xs ih =>
    intro b
    by_cases h : g x < g b
    · have h2 := ih x
      rw [minByG, if_pos h]
      refine ⟨le_trans h2.1 (le_of_lt h), ?_⟩
      intro y hy
      rcases List.mem_cons.1 hy with hh | ht
      · exact hh ▸ h2.1
      · exact h2.2 y ht
    · have h2 := ih b
      rw [minByG, if_neg h]
      refine ⟨h2.1, ?_⟩
      intro y hy
      rcases List.mem_cons.1 hy with hh | ht
      · exact hh ▸ le_trans h2.1 (not_lt.1 h)
      · exact h2.2 y ht

theorem minByG_split {α : Type} (g : α → ℚ) : ∀ (l : List α) (b : α),
    ∃ l1 l2, b :: l = l1 ++ minByG g b l :: l2 ∧
      (∀ x ∈ l1, g (minByG g b l) < g x) ∧
      (∀ x ∈ l2, g (minByG g b l) ≤ g x) := by
  intro l
  induction l with
  | nil =>
    intro b
    exact ⟨[], [], rfl, by simp, by simp⟩
  | cons x xs ih =>
    intro b
    by_cases h : g x < g b
    · obtain ⟨l1, l2, heq, hpre, hpost⟩ := ih x
      rw [minByG, if_pos h]
      refine ⟨b :: l1, l2, ?_, ?_, hpost⟩
      · rw [List.cons_append, ← heq]
      · intro y hy
        rcases List.mem_cons.1 hy with hh | ht
        · subst hh
          exact lt_of_le_of_lt (minByG_le g xs x).1 h
        · exact hpre y ht
    · obtain ⟨l1, l2, heq, hpre, hpost⟩ := ih b
      rw [minByG, if_neg h]
      cases l1 with
      | nil =>
        simp only [List.nil_append] at heq
        injection heq with hb hxs
        refine ⟨[], x :: xs, ?_, by simp, ?_⟩
        · rw [← hb]
          rfl
        · intro y hy
          rw [← hb]
          rcases List.mem_cons.1 hy with hh | ht
          · subst hh
            exact not_lt.1 h
          · rw [← hb] at hpost
            exact hpost y (hxs ▸ ht)
      | cons a l1t =>
        rw [List.cons_append] at heq
        injection heq with ha htail
        refine ⟨b :: x :: l1t, l2, ?_, ?_, hpost⟩
        · rw [List.cons_append, List.cons_append, ← htail]
        · intro y hy
          have hmb : g (minByG g b xs) < g b := by
            have hgb := hpre a (List.mem_cons_self _ _)
            rwa [← ha] at hgb
          rcases List.mem_cons.1 hy with hh | ht
          · exact hh ▸ hmb
          · rcases List.mem_cons.1 ht with hh2 | ht2
            · subst hh2
              exact lt_of_lt_of_le hmb (not_lt.1 h)
            · refine hpre y (List.mem_cons_of_mem _ ht2)

/-! ## Autotuner lemmas: candidate keys (C1, C7) -/

theorem dropLast_append_drop_self {α : Type} (l : List α) :
    l.dropLast ++ l.drop (l.length - 1) = l := by
  induction l with
  | nil => rfl
  | cons a t ih =>
    cases t with
    | nil => rfl
    | cons b t2 =>
      have h1 : (a :: b :: t2).dropLast = a :: (b :: t2).dropLast := rfl
      have h2 : (a :: b :: t2).length - 1 = (b :: t2).length := rfl
      rw [h1, h2]
      have h3 : (a :: b :: t2).drop ((b :: t2).length) =
          (b :: t2).drop ((b :: t2).length - 1) := rfl
      rw [h3, List.cons_append, ih]

theorem baseCandidates_keys (op : OpModel) :
    ∀ c ∈ baseCandidates op, c.map (fun kv => kv.1) = mapperKeys op := by
  intro c hc
  simp only [baseCandidates, List.mem_map] at hc
  obtain ⟨v, _, heq⟩ := hc
  subst heq
  have hcomp : ((fun kv : String × Nat => kv.1) ∘ fun k => (k, v)) = id := rfl
  rw [List.map_map, hcomp, List.map_id]

theorem elaborate_keys (op : OpModel) (bs : List Candidate)
    (hbs : ∀ b ∈ bs, b.map (fun kv => kv.1) = mapperKeys op) :
    ∀ c ∈ elaborateCandidates bs, c.map (fun kv => kv.1) = mapperKeys op := by
  intro c hc
  simp only [elaborateCandidates, List.mem_append] at hc
  rcases hc with hc | hc
  · simp only [List.mem_flatMap, List.mem_map] at hc
    obtain ⟨b, hb, i, hi, heq⟩ := hc
    subst heq
    rw [List.map_append, List.map_dropLast, List.map_drop]
    rw [hbs b (List.mem_of_mem_take hb), hbs i hi]
    have : i.length = (mapperKeys op).length := by
      rw [← hbs i hi, List.length_map]
    rw [this]
    exact dropLast_append_drop_self _
  · simp only [List.mem_flatMap, List.mem_map] at hc
    obtain ⟨b, hb, i, _, j, _, heq⟩ := hc
    subst heq
    rw [List.map_map, ← hbs b hb]
    refine List.map_congr_left ?_
    intro kv _
    by_cases hj : kv.1 ∈ j <;> simp [hj]

theorem buildCandidates_keys (op : OpModel) :
    ∀ c ∈ buildCandidates op, c.map (fun kv => kv.1) = mapperKeys op := by
  intro c hc
  rw [buildCandidates] at hc
  by_cases hag : op.needsAggressive
  · rw [if_pos hag, List.mem_append] at hc
    rcases hc with hc | hc
    · exact baseCandidates_keys op c hc
    · exact elaborate_keys op _ (baseCandidates_keys op) c hc
  · rw [if_neg hag] at hc
    exact baseCandidates_keys op c hc

/-! ## Autotuner lemmas: the candidate loop (C1, C7, C9) -/

/-- The resolved-extent invariant of the trial argument mapping: each
governing dimension of a blocking parameter is bound to its resolved
extent. -/
def extOk (op : OpModel) (ext : String → Nat) (cur : Args) : Prop :=
  ∀ a ∈ op.dleArgs, lookupA cur a.origDim.name = some (Value.natV (ext a.origDim.name))

/-- Well-formedness of an operator and a resolved argument mapping at the
point `_autotune` is called: unique blocking-parameter names appearing in
the mapping, governing dimensions bound to their resolved extents, the
governing dimensions distinct from the blocking parameters, the squeezable
dimensions and the profiler key, and a duplicate-free candidate set. -/
def wfAT (op : OpModel) (ext : String → Nat) (args : Args) : Prop :=
  (mapperKeys op).Nodup ∧
  (∀ k ∈ mapperKeys op, k ∈ args.map (fun kv => kv.1)) ∧
  extOk op ext args ∧
  (∀ a ∈ op.dleArgs, a.origDim.name ∉ mapperKeys op ∧ a.origDim.name ∉ op.squeezable ∧
    a.origDim.name ≠ op.profilerName) ∧
  (buildCandidates op).Nodup

theorem mapperPairs_keys (op : OpModel) :
    (mapperPairs op).map (fun kv => kv.1) = mapperKeys op := by
  simp [mapperPairs, mapperKeys, List.map_map]

theorem odim_spec (op : OpModel) (_hnd : (mapperKeys op).Nodup) (k : String)
    (hk : k ∈ mapperKeys op) :
    ∃ a ∈ op.dleArgs, a.argDim.name = k ∧ odimOf op k = a.origDim.name := by
  have hk2 : k ∈ (mapperPairs op).map (fun kv => kv.1) := by
    rw [mapperPairs_keys]
    exact hk
  have hs := (lookupA_isSome_iff (mapperPairs op) k).2 hk2
  obtain ⟨v, hv⟩ := Option.isSome_iff_exists.1 hs
  have hmem := lookupA_mem hv
  simp only [mapperPairs, List.mem_map] at hmem
  obtain ⟨a, ha, heq⟩ := hmem
  have h1 : a.argDim.name = k := congrArg Prod.fst heq
  have h2 : a.origDim.name = v := congrArg Prod.snd heq
  refine ⟨a, ha, h1, ?_⟩
  rw [odimOf, hv, Option.getD_some, h2]

theorem extOk_setA (op : OpModel) (ext : String → Nat) (cur : Args)
    (hinv : extOk op ext cur) (k0 : String) (v : Value)
    (hk0 : ∀ a ∈ op.dleArgs, a.origDim.name ≠ k0) : extOk op ext (setA cur k0 v) := by
  intro a ha
  rw [lookupA_setA_ne cur k0 _ _ (hk0 a ha)]
  exact hinv a ha

theorem mem_setA_keys {α : Type} (l : List (String × α)) (k k2 : String) (v : α)
    (h : k2 ∈ l.map (fun kv => kv.1)) : k2 ∈ (setA l k v).map (fun kv => kv.1) := by
  induction l with
  | nil => simp at h
  | cons kv rest ih =>
    by_cases hk : kv.1 = k
    · simp only [setA, if_pos hk, List.map_cons]
      simp only [List.map_cons, List.mem_cons] at h
      rcases h with h | h
      · exact List.mem_cons.2 (Or.inl (hk ▸ h))
      · exact List.mem_cons.2 (Or.inr h)
    · simp only [setA, if_neg hk, List.map_cons]
      simp only [List.map_cons, List.mem_cons] at h
      rcases h with h | h
      · exact List.mem_cons.2 (Or.inl h)
      · exact List.mem_cons.2 (Or.inr (ih h))

theorem tcGo_preserves (op : OpModel) (cand : Candidate)
    (hkc : cand.map (fun kv => kv.1) = mapperKeys op) :
    ∀ (ks : List String) (cur : Args) (k : String), k ∉ mapperKeys op →
      k ∉ op.squeezable → lookupA (tcGo op cand cur ks).1 k = lookupA cur k := by
  intro ks
  induction ks with
  | nil => intro cur k _ _; rfl
  | cons k0 ks ih =>
    intro cur k hk1 hk2
    cases hc : lookupA cand k0 with
    | some val =>
      have hk0 : k0 ∈ mapperKeys op := by
        rw [← hkc]
        exact List.mem_map.2 ⟨(k0, val), lookupA_mem hc, rfl⟩
      have hkk0 : k ≠ k0 := fun e => hk1 (e ▸ hk0)
      cases ho : lookupA cur (odimOf op k0) with
      | some v =>
        cases v with
        | natV e =>
          by_cases hle : val ≤ e
          · simp only [tcGo, hc, ho, if_pos hle]
            rw [ih _ k hk1 hk2]
            exact lookupA_setA_ne cur k0 k _ hkk0
          · simp only [tcGo, hc, ho, if_neg hle]
        | arrV a => simp only [tcGo, hc, ho]
        | dimV d => simp only [tcGo, hc, ho]
        | profV => simp only [tcGo, hc, ho]
      | none => simp only [tcGo, hc, ho]
    | none =>
      by_cases hsq : k0 ∈ op.squeezable
      · have hkk0 : k ≠ k0 := fun e => hk2 (e ▸ hsq)
        simp only [tcGo, hc, if_pos hsq]
        rw [ih _ k hk1 hk2]
        exact lookupA_setA_ne cur k0 k _ hkk0
      · simp only [tcGo, hc, if_neg hsq]
        exact ih _ k hk1 hk2

theorem tcGo_extOk (op : OpModel) (ext : String → Nat) (cand : Candidate)
    (hkc : cand.map (fun kv => kv.1) = mapperKeys op)
    (hsep : ∀ a ∈ op.dleArgs, a.origDim.name ∉ mapperKeys op ∧
      a.origDim.name ∉ op.squeezable ∧ a.origDim.name ≠ op.profilerName)
    (ks : List String) (cur : Args) (hinv : extOk op ext cur) :
    extOk op ext (tcGo op cand cur ks).1 := by
  intro a ha
  rw [tcGo_preserves op cand hkc ks cur _ (hsep a ha).1 (hsep a ha).2.1]
  exact hinv a ha

theorem tcGo_keys (op : OpModel) (cand : Candidate) :
    ∀ (ks : List String) (cur : Args) (k : String), k ∈ cur.map (fun kv => kv.1) →
      k ∈ (tcGo op cand cur ks).1.map (fun kv => kv.1) := by
  intro ks
  induction ks with
  | nil => intro cur k h; exact h
  | cons k0 ks ih =>
    intro cur k h
    cases hc : lookupA cand k0 with
    | some val =>
      cases ho : lookupA cur (odimOf op k0) with
      | some v =>
        cases v with
        | natV e =>
          by_cases hle : val ≤ e
          · simp only [tcGo, hc, ho, if_pos hle]
            exact ih _ k (mem_setA_keys cur k0 k _ h)
          · simp only [tcGo, hc, ho, if_neg hle]
            exact h
        | arrV a => simp only [tcGo, hc, ho]; exact h
        | dimV d => simp only [tcGo, hc, ho]; exact h
        | profV => simp only [tcGo, hc, ho]; exact h
      | none => simp only [tcGo, hc, ho]; exact h
    | none =>
      by_cases hsq : k0 ∈ op.squeezable
      · simp only [tcGo, hc, if_pos hsq]
        exact ih _ k (mem_setA_keys cur k0 k _ h)
      · simp only [tcGo, hc, if_neg hsq]
        exact ih _ k h

theorem tcGo_flag (op : OpModel) (ext : String → Nat) (cand : Candidate)
    (hkc : cand.map (fun kv => kv.1) = mapperKeys op)
    (hndm : (mapperKeys op).Nodup)
    (hsep : ∀ a ∈ op.dleArgs, a.origDim.name ∉ mapperKeys op ∧
      a.origDim.name ∉ op.squeezable ∧ a.origDim.name ≠ op.profilerName) :
    ∀ (ks : List String) (cur : Args), extOk op ext cur →
      (tcGo op cand cur ks).2 =
        ks.all (fun k =>
          match lookupA cand k with
          | some v => decide (v ≤ ext (odimOf op k))
          | none => true) := by
  intro ks
  induction ks with
  | nil => intro cur _; rfl
  | cons k0 ks ih =>
    intro cur hinv
    cases hc : lookupA cand k0 with
    | some val =>
      have hk0 : k0 ∈ mapperKeys op := by
        rw [← hkc]
        exact List.mem_map.2 ⟨(k0, val), lookupA_mem hc, rfl⟩
      obtain ⟨a, ha, hak, hao⟩ := odim_spec op hndm k0 hk0
      have ho : lookupA cur (odimOf op k0) = some (Value.natV (ext (odimOf op k0))) := by
        rw [hao]
        exact hinv a ha
      have hne : ∀ b ∈ op.dleArgs, b.origDim.name ≠ k0 :=
        fun b hb e => (hsep b hb).1 (e ▸ hk0)
      by_cases hle : val ≤ ext (odimOf op k0)
      · simp only [tcGo, hc, ho, if_pos hle, List.all_cons]
        rw [ih _ (extOk_setA op ext cur hinv k0 _ hne)]
        simp [hc, hle]
      · simp only [tcGo, hc, ho, if_neg hle, List.all_cons]
        simp [hc, hle]
    | none =>
      by_cases hsq : k0 ∈ op.squeezable
      · have hne : ∀ b ∈ op.dleArgs, b.origDim.name ≠ k0 :=
          fun b hb e => (hsep b hb).2.1 (e ▸ hsq)
        simp only [tcGo, hc, if_pos hsq, List.all_cons]
        rw [ih _ (extOk_setA op ext cur hinv k0 _ hne)]
        simp [hc]
      · simp only [tcGo, hc, if_neg hsq, List.all_cons]
        rw [ih _ hinv]
        simp [hc]

theorem legal_transfer (op : OpModel) (ext : String → Nat) (cand : Candidate)
    (hkc : cand.map (fun kv => kv.1) = mapperKeys op)
    (hndm : (mapperKeys op).Nodup)
    (keys : List String) (hsub : ∀ k ∈ mapperKeys op, k ∈ keys) :
    (keys.all (fun k =>
      match lookupA cand k with
      | some v => decide (v ≤ ext (odimOf op k))
      | none => true)) = legalCand op ext cand := by
  have hndc : (cand.map (fun kv => kv.1)).Nodup := by
    rw [hkc]
    exact hndm
  by_cases hB : legalCand op ext cand = true
  · rw [hB, List.all_eq_true]
    intro k hk
    cases hc : lookupA cand k with
    | none => rfl
    | some v =>
      have hmem := lookupA_mem hc
      have := (List.all_eq_true.1 hB) (k, v) hmem
      simpa using this
  · have hB2 : legalCand op ext cand = false := by
      cases hE : legalCand op ext cand
      · rfl
      · exact absurd hE hB
    rw [hB2]
    cases hA : keys.all (fun k =>
      match lookupA cand k with
      | some v => decide (v ≤ ext (odimOf op k))
      | none => true)
    · rfl
    · exfalso
      refine hB (List.all_eq_true.2 ?_)
      intro kv hkv
      have hk : kv.1 ∈ keys := hsub kv.1 (hkc ▸ List.mem_map.2 ⟨kv, hkv, rfl⟩)
      have := (List.all_eq_true.1 hA) kv.1 hk
      rw [lookupA_of_mem_nodup hndc (by exact hkv)] at this
      simpa using this

theorem tryCandidate_legal (op : OpModel) (ext : String → Nat) (cand : Candidate)
    (cur : Args)
    (hkc : cand.map (fun kv => kv.1) = mapperKeys op)
    (hndm : (mapperKeys op).Nodup)
    (hsep : ∀ a ∈ op.dleArgs, a.origDim.name ∉ mapperKeys op ∧
      a.origDim.name ∉ op.squeezable ∧ a.origDim.name ≠ op.profilerName)
    (hsub : ∀ k ∈ mapperKeys op, k ∈ cur.map (fun kv => kv.1))
    (hinv : extOk op ext cur) :
    (tryCandidate op cand cur).2 = legalCand op ext cand := by
  rw [tryCandidate, tcGo_flag op ext cand hkc hndm hsep _ cur hinv]
  exact legal_transfer op ext cand hkc hndm _ hsub

theorem recordTiming_append (tms : List (Candidate × ℚ)) (c : Candidate) (t : ℚ)
    (h : c ∉ tms.map (fun p => p.1)) : recordTiming tms c t = tms ++ [(c, t)] := by
  rw [recordTiming, if_neg h]

theorem atLoop_timings (op : OpModel) (time : Candidate → ℚ) (ext : String → Nat)
    (hndm : (mapperKeys op).Nodup)
    (hsep : ∀ a ∈ op.dleArgs, a.origDim.name ∉ mapperKeys op ∧
      a.origDim.name ∉ op.squeezable ∧ a.origDim.name ≠ op.profilerName) :
    ∀ (cs : List Candidate) (cur : Args) (tms : List (Candidate × ℚ)),
      (∀ c ∈ cs, c.map (fun kv => kv.1) = mapperKeys op) →
      cs.Nodup →
      (∀ c ∈ cs, c ∉ tms.map (fun p => p.1)) →
      (∀ k ∈ mapperKeys op, k ∈ cur.map (fun kv => kv.1)) →
      extOk op ext cur →
      (atLoop op time cs cur tms).2 =
        tms ++ (cs.filter (legalCand op ext)).map (fun c => (c, time c)) := by
  intro cs
  induction cs with
  | nil =>
    intro cur tms _ _ _ _ _
    simp [atLoop]
  | cons c cs ih =>
    intro cur tms hkeys hnd hdisj hsub hinv
    have hkc : c.map (fun kv => kv.1) = mapperKeys op := hkeys c (List.mem_cons_self _ _)
    have hlegeq : (tryCandidate op c cur).2 = legalCand op ext c :=
      tryCandidate_legal op ext c cur hkc hndm hsep hsub hinv
    have hkeys2 : ∀ c2 ∈ cs, c2.map (fun kv => kv.1) = mapperKeys op :=
      fun c2 h2 => hkeys c2 (List.mem_cons_of_mem _ h2)
    have hnd2 : cs.Nodup := (List.nodup_cons.1 hnd).2
    have hcnotin : c ∉ cs := (List.nodup_cons.1 hnd).1
    have hinv1 : extOk op ext (tryCandidate op c cur).1 :=
      tcGo_extOk op ext c hkc hsep _ cur hinv
    have hsub1 : ∀ k ∈ mapperKeys op, k ∈ (tryCandidate op c cur).1.map (fun kv => kv.1) :=
      fun k hk => tcGo_keys op c _ cur k (hsub k hk)
    by_cases hleg : legalCand op ext c = true
    · have h2 : (tryCandidate op c cur).2 = true := by rw [hlegeq, hleg]
      simp only [atLoop, h2, if_true]
      rw [recordTiming_append tms c (time c) (hdisj c (List.mem_cons_self _ _))]
      have hprofne : ∀ a ∈ op.dleArgs, a.origDim.name ≠ op.profilerName :=
        fun a ha => (hsep a ha).2.2
      rw [ih _ (tms ++ [(c, time c)]) hkeys2 hnd2 ?hdisj2 ?hsub2 ?hinv2]
      case hdisj2 =>
        intro c2 h2mem
        rw [List.map_append, List.mem_append]
        rintro (hin | hin)
        · exact hdisj c2 (List.mem_cons_of_mem _ h2mem) hin
        · simp only [List.map_cons, List.map_nil, List.mem_singleton] at hin
          exact hcnotin (hin ▸ h2mem)
      case hsub2 =>
        intro k hk
        exact mem_setA_keys _ op.profilerName k _ (hsub1 k hk)
      case hinv2 =>
        exact extOk_setA op ext _ hinv1 op.profilerName _ hprofne
      rw [List.filter_cons_of_pos hleg]
      simp [List.append_assoc]
    · have hleg2 : legalCand op ext c = false := by
        cases hE : legalCand op ext c
        · rfl
        · exact absurd hE hleg
      have h2 : (tryCandidate op c cur).2 = false := by rw [hlegeq, hleg2]
      simp only [atLoop, h2, Bool.false_eq_true, if_false]
      rw [ih _ tms hkeys2 hnd2
        (fun c2 h2mem => hdisj c2 (List.mem_cons_of_mem _ h2mem)) hsub1 hinv1]
      rw [List.filter_cons_of_neg (by simp [hleg2])]

theorem atSetup_keys (op : OpModel) (args : Args) :
    (atSetup op args).map (fun kv => kv.1) = args.map (fun kv => kv.1) := by
  simp [atSetup, List.map_map]

theorem extOk_atSetup (op : OpModel) (ext : String → Nat) (args : Args)
    (hext : extOk op ext args) : extOk op ext (atSetup op args) := by
  intro a ha
  rw [atSetup,
    lookupA_mapVal args (fun k v => if k ∈ op.outputFields then copyVal v else v)
      a.origDim.name,
    hext a ha]
  by_cases h : a.origDim.name ∈ op.outputFields <;> simp [h, copyVal]

/-- The timings recorded by the whole search: exactly the legal candidates
in set order, each with its measured time. -/
theorem autotuneRun_timings (op : OpModel) (time : Candidate → ℚ) (ext : String → Nat)
    (args : Args) (hwf : wfAT op ext args) :
    (autotuneRun op time args).2 =
      ((buildCandidates op).filter (legalCand op ext)).map (fun c => (c, time c)) := by
  obtain ⟨hndm, hsub, hext, hsep, hndc⟩ := hwf
  rw [autotuneRun]
  rw [atLoop_timings op time ext hndm hsep (buildCandidates op) (atSetup op args) []
    (buildCandidates_keys op) hndc (by simp) ?_ (extOk_atSetup op ext args hext)]
  · simp
  · intro k hk
    rw [atSetup_keys]
    exact hsub k hk

/-! ## Autotuner lemmas: write-back (C1, C9) -/

theorem writeBack_lookup (mk : List String) (best : Candidate) :
    ∀ (args args2 : Args), writeBack mk best args = Except.ok args2 →
      ∀ k, lookupA args2 k =
        (match lookupA args k with
         | some w => if k ∈ mk then some (Value.natV ((lookupA best k).getD 0)) else some w
         | none => none) := by
  intro args
  induction args with
  | nil =>
    intro args2 h k
    simp only [writeBack, List.mapM_nil] at h
    have : args2 = [] := by
      cases h
      rfl
    subst this
    rfl
  | cons kv rest ih =>
    intro args2 h k
    rw [writeBack, List.mapM_cons] at h
    by_cases hmk : kv.1 ∈ mk
    · cases hb : lookupA best kv.1 with
      | none =>
        rw [if_pos hmk] at h
        rw [hb] at h
        simp [bind, Except.bind] at h
      | some v =>
        rw [if_pos hmk] at h
        rw [hb] at h
        simp only [bind, Except.bind, pure, Except.pure] at h
        cases hrest : List.mapM (fun kv =>
            if kv.1 ∈ mk then
              match lookupA best kv.1 with
              | some v => Except.ok (kv.1, Value.natV v)
              | none => Except.error "KeyError: blocking parameter missing from best candidate"
            else Except.ok kv) rest with
        | error e => rw [hrest] at h; exact absurd h (by simp)
        | ok bs =>
          rw [hrest] at h
          simp only [Except.ok.injEq] at h
          subst h
          by_cases hk : kv.1 = k
          · subst hk
            simp [lookupA, hmk, hb]
          · have hwb : writeBack mk best rest = Except.ok bs := by
              rw [writeBack]
              exact hrest
            simp only [lookupA, if_neg hk]
            exact ih bs hwb k
    · rw [if_neg hmk] at h
      simp only [bind, Except.bind, pure, Except.pure] at h
      cases hrest : List.mapM (fun kv =>
          if kv.1 ∈ mk then
            match lookupA best kv.1 with
            | some v => Except.ok (kv.1, Value.natV v)
            | none => Except.error "KeyError: blocking parameter missing from best candidate"
          else Except.ok kv) rest with
      | error e => rw [hrest] at h; exact absurd h (by simp)
      | ok bs =>
        rw [hrest] at h
        simp only [Except.ok.injEq] at h
        subst h
        by_cases hk : kv.1 = k
        · subst hk
          simp [lookupA, hmk]
        · have hwb : writeBack mk best rest = Except.ok bs := by
            rw [writeBack]
            exact hrest
          simp only [lookupA, if_neg hk]
          exact ih bs hwb k

theorem writeBack_isOk (mk : List String) (best : Candidate) :
    ∀ (args : Args), (∀ kv ∈ args, kv.1 ∈ mk → (lookupA best kv.1).isSome) →
      ∃ args2, writeBack mk best args = Except.ok args2 := by
  intro args
  induction args with
  | nil =>
    intro _
    exact ⟨[], rfl⟩
  | cons kv rest ih =>
    intro h
    obtain ⟨bs, hbs⟩ := ih (fun q hq => h q (List.mem_cons_of_mem _ hq))
    rw [writeBack] at hbs
    by_cases hmk : kv.1 ∈ mk
    · obtain ⟨v, hv⟩ := Option.isSome_iff_exists.1 (h kv (List.mem_cons_self _ _) hmk)
      refine ⟨(kv.1, Value.natV v) :: bs, ?_⟩
      rw [writeBack, List.mapM_cons]
      rw [if_pos hmk, hv, hbs]
      rfl
    · refine ⟨kv :: bs, ?_⟩
      rw [writeBack, List.mapM_cons]
      rw [if_neg hmk, hbs]
      rfl

instance (op : OpModel) (ext : String → Nat) (args : Args) :
    Decidable (wfAT op ext args) := by
  unfold wfAT extOk
  infer_instance

/-- C1: with at least one legal candidate, the autotuner measures exactly
the legal candidates (illegal ones — some blocking value above the
resolved extent of its governing dimension — are skipped without error),
selects the first candidate attaining the minimum total measured time
(everything strictly earlier in discovery order is strictly slower,
nothing anywhere is faster), and writes the winner's values back into the
caller's argument mapping under the blocking-parameter names. -/
theorem autotune_selection (op : OpModel) (time : Candidate → ℚ) (ext : String → Nat)
    (args : Args) (hwf : wfAT op ext args) (hbl : op.hasBlocking = true)
    (hleg : (buildCandidates op).filter (legalCand op ext) ≠ []) :
    ∃ best args2,
      autotuneFn op time args = Except.ok args2 ∧
      best ∈ (buildCandidates op).filter (legalCand op ext) ∧
      (autotuneRun op time args).2 =
        ((buildCandidates op).filter (legalCand op ext)).map (fun c => (c, time c)) ∧
      (∃ l1 l2, (buildCandidates op).filter (legalCand op ext) = l1 ++ best :: l2 ∧
        ∀ c ∈ l1, time best < time c) ∧
      (∀ c ∈ (buildCandidates op).filter (legalCand op ext), time best ≤ time c) ∧
      (∀ kv ∈ best, lookupA args2 kv.1 = some (Value.natV kv.2)) := by
  have htm := autotuneRun_timings op time ext args hwf
  obtain ⟨hndm, hsubm, hext, hsep, hndc⟩ := hwf
  cases hL : (buildCandidates op).filter (legalCand op ext) with
  | nil => exact absurd hL hleg
  | cons c0 rest =>
    obtain ⟨l1, l2, hsplit, hpre, hpost⟩ := minByG_split time rest c0
    have hbestmem_c : minByG time c0 rest ∈ c0 :: rest := by
      rw [hsplit]
      exact List.mem_append.2 (Or.inr (List.mem_cons_self _ _))
    have hbestmem : minByG time c0 rest ∈ (buildCandidates op).filter (legalCand op ext) := by
      rw [hL]
      exact hbestmem_c
    have hbestbuild : minByG time c0 rest ∈ buildCandidates op :=
      (List.mem_filter.1 hbestmem).1
    have hbkeys : (minByG time c0 rest).map (fun kv => kv.1) = mapperKeys op :=
      buildCandidates_keys op _ hbestbuild
    have hok : ∀ kv ∈ args, kv.1 ∈ mapperKeys op →
        (lookupA (minByG time c0 rest) kv.1).isSome := by
      intro kv _ hkv
      rw [lookupA_isSome_iff, hbkeys]
      exact hkv
    obtain ⟨args2, hargs2⟩ := writeBack_isOk (mapperKeys op) _ args hok
    have hauto : autotuneFn op time args = Except.ok args2 := by
      rw [autotuneFn, if_pos hbl, htm, hL, List.map_cons]
      show writeBack (mapperKeys op)
        (minBy2 (c0, time c0) (rest.map (fun c => (c, time c)))).1 args = Except.ok args2
      rw [minBy2_map time rest c0]
      exact hargs2
    refine ⟨minByG time c0 rest, args2, hauto, hbestmem_c, ?_, ⟨l1, l2, hsplit, hpre⟩, ?_, ?_⟩
    · rw [htm, hL]
    · intro c hc
      rcases List.mem_cons.1 hc with hh | ht
      · exact hh ▸ (minByG_le time rest c0).1
      · exact (minByG_le time rest c0).2 c ht
    · intro kv hkv
      have hkmk : kv.1 ∈ mapperKeys op := by
        rw [← hbkeys]
        exact List.mem_map.2 ⟨kv, hkv, rfl⟩
      have hargsk : (lookupA args kv.1).isSome := by
        rw [lookupA_isSome_iff]
        exact hsubm kv.1 hkmk
      obtain ⟨w, hw⟩ := Option.isSome_iff_exists.1 hargsk
      have hchar := writeBack_lookup (mapperKeys op) _ args args2 hargs2 kv.1
      rw [hw] at hchar
      rw [hchar]
      show (if kv.1 ∈ mapperKeys op then
          some (Value.natV ((lookupA (minByG time c0 rest) kv.1).getD 0))
        else some w) = some (Value.natV kv.2)
      rw [if_pos hkmk]
      have hbnd : ((minByG time c0 rest).map (fun kv => kv.1)).Nodup := by
        rw [hbkeys]
        exact hndm
      rw [lookupA_of_mem_nodup hbnd hkv, Option.getD_some]

def xbDim : Dim := Dim.plain ⟨"x_block", none⟩

/-- A concrete blocking operator: one blocking parameter `x_block`
governed by `x`. -/
def opB : OpModel :=
  { dataParams := [uData]
    dimParams := [xDim, xbDim]
    dleArgs := [⟨xbDim, xDim, none⟩]
    hasBlocking := true
    needsAggressive := false
    outputFields := ["u"]
    squeezable := []
    profilerName := "profiler"
    sections := [⟨"loop_x_0", 2, 1, [xDim]⟩]
    itemsize := 8 }

def argsB : Args := [("u", Value.arrV uData), ("x", Value.natV 20), ("x_block", Value.natV 20)]

def extB : String → Nat := fun _ => 20

def timeB : Candidate → ℚ := fun c => (((lookupA c "x_block").getD 0 : Nat) : ℚ)

theorem autotune_selection_witness :
    ∃ best args2,
      autotuneFn opB timeB argsB = Except.ok args2 ∧
      best ∈ (buildCandidates opB).filter (legalCand opB extB) ∧
      (autotuneRun opB timeB argsB).2 =
        ((buildCandidates opB).filter (legalCand opB extB)).map (fun c => (c, timeB c)) ∧
      (∃ l1 l2, (buildCandidates opB).filter (legalCand opB extB) = l1 ++ best :: l2 ∧
        ∀ c ∈ l1, timeB best < timeB c) ∧
      (∀ c ∈ (buildCandidates opB).filter (legalCand opB extB), timeB best ≤ timeB c) ∧
      (∀ kv ∈ best, lookupA args2 kv.1 = some (Value.natV kv.2)) :=
  autotune_selection opB timeB extB argsB (by decide) rfl (by decide)

/-- C7: when every candidate in the set is illegal, no timing is recorded
and the autotuner fails explicitly (`min` over the empty timings raises
`ValueError`) instead of silently committing an arbitrary block size. -/
theorem autotune_all_illegal (op : OpModel) (time : Candidate → ℚ) (ext : String → Nat)
    (args : Args) (hwf : wfAT op ext args) (hbl : op.hasBlocking = true)
    (hill : ∀ c ∈ buildCandidates op, legalCand op ext c = false) :
    autotuneFn op time args = Except.error "ValueError: min() arg is an empty sequence" := by
  have htm := autotuneRun_timings op time ext args hwf
  have hfil : (buildCandidates op).filter (legalCand op ext) = [] := by
    rw [List.filter_eq_nil_iff]
    intro c hc
    simp [hill c hc]
  rw [autotuneFn, if_pos hbl, htm, hfil]
  rfl

theorem autotune_all_illegal_witness :
    autotuneFn opB timeB
        [("u", Value.arrV uData), ("x", Value.natV 4), ("x_block", Value.natV 4)] =
      Except.error "ValueError: min() arg is an empty sequence" :=
  autotune_all_illegal opB timeB (fun _ => 4)
    [("u", Value.arrV uData), ("x", Value.natV 4), ("x_block", Value.natV 4)]
    (by decide) rfl (by decide)

/-- C9: the autotuning search does not touch caller-visible output
buffers — in the trial mapping every output parameter is bound to a
private copy (a distinct buffer) — and on a successful return the
caller's argument mapping is unchanged at every key that is not a
blocking-parameter name. -/
theorem autotune_frame_effect (op : OpModel) (time : Candidate → ℚ) (args : Args)
    (hnd : (args.map (fun kv => kv.1)).Nodup) :
    (∀ k a, (k, Value.arrV a) ∈ args → k ∈ op.outputFields →
      lookupA (atSetup op args) k = some (Value.arrV (copyData a)) ∧
      Value.arrV (copyData a) ≠ Value.arrV a) ∧
    (∀ args2, autotuneFn op time args = Except.ok args2 →
      ∀ kv ∈ args, kv.1 ∉ mapperKeys op → lookupA args2 kv.1 = lookupA args kv.1) := by
  constructor
  · intro k a hmem hout
    have hlk : lookupA args k = some (Value.arrV a) := lookupA_of_mem_nodup hnd hmem
    constructor
    · rw [atSetup,
        lookupA_mapVal args (fun k v => if k ∈ op.outputFields then copyVal v else v) k,
        hlk]
      simp [hout, copyVal]
    · intro h
      simp only [Value.arrV.injEq] at h
      have hr : a.ref + 1 = a.ref := congrArg SymData.ref h
      exact Nat.succ_ne_self _ hr
  · intro args2 hok kv hkv hnk
    rw [autotuneFn] at hok
    by_cases hbl : op.hasBlocking = true
    · rw [if_pos hbl] at hok
      cases htm : (autotuneRun op time args).2 with
      | nil =>
        rw [htm] at hok
        exact absurd hok (by simp)
      | cons t ts =>
        rw [htm] at hok
        have hok2 : writeBack (mapperKeys op) (minBy2 t ts).1 args = Except.ok args2 := hok
        have hchar := writeBack_lookup (mapperKeys op) _ args args2 hok2 kv.1
        have hsome : (lookupA args kv.1).isSome := by
          rw [lookupA_isSome_iff]
          exact List.mem_map.2 ⟨kv, hkv, rfl⟩
        obtain ⟨w, hw⟩ := Option.isSome_iff_exists.1 hsome
        rw [hw] at hchar
        rw [hchar, hw]
        show (if kv.1 ∈ mapperKeys op then
            some (Value.natV ((lookupA (minBy2 t ts).1 kv.1).getD 0))
          else some w) = some w
        rw [if_neg hnk]
    · rw [if_neg hbl] at hok
      cases hok
      rfl

theorem autotune_frame_effect_witness :
    lookupA (atSetup opB argsB) "u" = some (Value.arrV (copyData uData)) ∧
    Value.arrV (copyData uData) ≠ Value.arrV uData :=
  (autotune_frame_effect opB timeB argsB (by decide)).1 "u" uData (by decide) (by decide)

/-- C8, counterexample to the claim as stated: invoking the operator via
`__call__` returns `None` (the summary built by `apply` is discarded
because `__call__` has no `return` statement), even though `apply` itself
produces the performance summary for the same invocation. -/
theorem call_discards_summary :
    callFn opW (fun _ => 0) (fun _ => 1 / 1000) ["u"] [] false = Except.ok () ∧
    applyFn opW (fun _ => 0) (fun _ => 1 / 1000) ["u"] [] false =
      Except.ok [("main", summaryEntry 2 1 8 [4] [4] (1 / 1000))] := by
  constructor
  · rfl
  · rfl

/-- C8, amended: invoking the operator via `__call__` executes the
computation but returns `None`; the performance summary — keyed by section
name (the most time-consuming section renamed `"main"`), each entry a
`PerfEntry` exposing measured time, achieved throughput, operational
intensity, iteration shape and data shape — is returned by the `apply`
method, of which `__call__` discards the result.  Concretely, `apply` on
the example operator returns the one-section summary. -/
theorem apply_returns_summary (op : OpModel) (time : Candidate → ℚ)
    (timings : String → ℚ) (pos : List String) (kw : List (String × KwVal))
    (at_ : Bool) :
    (∀ s, applyFn op time timings pos kw at_ = Except.ok s →
      callFn op time timings pos kw at_ = Except.ok ()) ∧
    (∀ argsds, argumentsFn op time pos kw at_ = Except.ok argsds →
      applyFn op time timings pos kw at_ = profileSummaryFn op argsds.2 timings) ∧
    (applyFn opW time (fun _ => 1 / 1000) ["u"] [] false =
      Except.ok [("main", summaryEntry 2 1 8 [4] [4] (1 / 1000))]) := by
  refine ⟨?_, ?_, rfl⟩
  · intro s h
    simp [callFn, h, bind, Except.bind]
  · intro argsds h
    simp [applyFn, h, bind, Except.bind]

theorem apply_returns_summary_witness :
    callFn opW (fun _ => 0) (fun _ => 1 / 1000) ["u"] [] false = Except.ok () :=
  (apply_returns_summary opW (fun _ => 0) (fun _ => 1 / 1000) ["u"] [] false).1
    [("main", summaryEntry 2 1 8 [4] [4] (1 / 1000))] rfl

end StencilKernel
